import Mathlib

/-!
Shallow embedding of the Google Maps scraper core (src/utils.py, src/parser.py,
src/scraper.py).  Python strings are modelled as `List Char`; Python `None` for
an optional value is `Option.none`; a Python dict is an association list that is
updated in place on key collision (`upsert`), matching insertion-order
semantics.  Timestamps of the rate limiter are rationals.
-/

/-- Python ASCII whitespace, the set stripped by `str.strip()` and matched by
the regex class backslash-s. -/
def isPySpace (c : Char) : Bool :=
  c = ' ' || c = '\t' || c = '\n' || c = '\r' || c = '\x0b' || c = '\x0c'

/-- Python `str.strip()`: drop whitespace from both ends. -/
def pyStrip (s : List Char) : List Char :=
  ((s.dropWhile isPySpace).reverse.dropWhile isPySpace).reverse

/-- Python `str.split(sep)` for a one-character separator: always returns at
least one (possibly empty) piece. -/
def pySplitCh (sep : Char) : List Char → List (List Char)
  | [] => [[]]
  | x :: xs =>
    match pySplitCh sep xs with
    | [] => [[x]]
    | h :: t => if x = sep then [] :: h :: t else (x :: h) :: t

theorem length_dropWhile_le_of (p : Char → Bool) (l : List Char) :
    (l.dropWhile p).length ≤ l.length := by
  induction l with
  | nil => simp [List.dropWhile]
  | cons a l ih =>
    by_cases h : p a
    · simp only [List.dropWhile, h]
      exact Nat.le_succ_of_le ih
    · simp [List.dropWhile, h]

/-- Worker of `pyRemoveAll` with an explicit fuel that bounds the number of
steps; every step consumes at least one character whenever the pattern is
non-empty, so fuel equal to the input length never runs out. -/
def pyRemoveAllAux (pat : List Char) : Nat → List Char → List Char
  | 0, s => s
  | fuel + 1, s =>
    if pat ≠ [] && pat.isPrefixOf s then pyRemoveAllAux pat fuel (s.drop pat.length)
    else
      match s with
      | [] => []
      | x :: xs => x :: pyRemoveAllAux pat fuel xs

/-- Python `str.replace(pat, '')`: delete every non-overlapping occurrence of
`pat`, scanning left to right. -/
def pyRemoveAll (pat : List Char) (s : List Char) : List Char :=
  pyRemoveAllAux pat s.length s

/-- Collapse every run of whitespace to a single space (the effect of
`re.sub(r'\s+', ' ', text)` on the regex class backslash-s): a whitespace
character followed by more whitespace contributes nothing, the last whitespace
character of a run contributes one space. -/
def collapseWs : List Char → List Char
  | [] => []
  | c :: rest =>
    if isPySpace c then
      match rest, collapseWs rest with
      | r0 :: _, r => if isPySpace r0 then r else ' ' :: r
      | [], _ => [' ']
    else c :: collapseWs rest

/-- Numeric value of a string of decimal digit characters (Python `int` on a
digit string). -/
def natOfDigits (s : List Char) : Nat :=
  s.foldl (fun n c => n * 10 + (c.toNat - '0'.toNat)) 0

/-- Character class `[a-zA-Z0-9_-]` of the place-id regexes. -/
def idChar (c : Char) : Bool :=
  c.isAlphanum || c = '_' || c = '-'

/-- Embedding of `utils.extract_phone`.  The source does
`re.sub(r'[^\d+]', '', text)` — keeping every digit and every `'+'` wherever it
occurs — and then returns `None` when the kept string (pluses included) is
shorter than 10 characters. -/
def extract_phone (text : List Char) : Option (List Char) :=
  if text = [] then none
  else
    let cleaned := text.filter (fun c => c.isDigit || c = '+')
    if cleaned.length < 10 then none
    else some cleaned

/-- Attempt of the rating regex `(\d+\.?\d*)\s*star` (case-insensitive) at the
current position: maximal digit run, optional dot plus digit run, whitespace,
then the literal `star`.  Returns the captured numeral.  The `float()`
conversion of the source cannot fail on this capture and is represented by the
numeral itself. -/
def ratingTry (s : List Char) : Option (List Char) :=
  let d1 := s.takeWhile Char.isDigit
  if d1 = [] then none
  else
    let r1 := s.dropWhile Char.isDigit
    let mid : List Char × List Char :=
      match r1 with
      | '.' :: rr => ('.' :: rr.takeWhile Char.isDigit, rr.dropWhile Char.isDigit)
      | _ => ([], r1)
    let r3 := mid.2.dropWhile isPySpace
    if (r3.take 4).map Char.toLower = [ 's', 't', 'a', 'r' ] then some (d1 ++ mid.1)
    else none

/-- Leftmost search for the rating pattern: try each position in turn. -/
def ratingScan : List Char → Option (List Char)
  | [] => none
  | c :: rest =>
    if c.isDigit then
      match ratingTry (c :: rest) with
      | some num => some num
      | none => ratingScan rest
    else ratingScan rest

/-- Embedding of `utils.extract_rating`; the rating float is represented by the
captured numeral string. -/
def extract_rating (aria_label : List Char) : Option (List Char) :=
  if aria_label = [] then none else ratingScan aria_label

/-- Leftmost run of the class `[\d,]` (digits and commas). -/
def rcScan : List Char → Option (List Char)
  | [] => none
  | c :: rest =>
    if c.isDigit || c = ',' then
      some ((c :: rest).takeWhile (fun x => x.isDigit || x = ','))
    else rcScan rest

/-- Embedding of `utils.extract_reviews_count`: first digits-and-commas run,
commas stripped; `int('')` raising `ValueError` (an all-comma run) yields
`None`. -/
def extract_reviews_count (text : List Char) : Option Nat :=
  if text = [] then none
  else
    match rcScan text with
    | none => none
    | some run =>
      let digits := run.filter (fun c => c ≠ ',')
      if digits = [] then none else some (natOfDigits digits)

/-- Parse `-?\d+\.?\d*` at the current position, returning the numeral and the
rest of the input.  The greedy sub-matches are deterministic here because in
both coordinate patterns the numeral is followed by a character that none of
the sub-classes can consume. -/
def numTry (s : List Char) : Option (List Char × List Char) :=
  let sign : List Char × List Char :=
    match s with
    | '-' :: r => (['-'], r)
    | _ => ([], s)
  let d1 := sign.2.takeWhile Char.isDigit
  if d1 = [] then none
  else
    let r1 := sign.2.dropWhile Char.isDigit
    match r1 with
    | '.' :: rr =>
      some (sign.1 ++ d1 ++ '.' :: rr.takeWhile Char.isDigit, rr.dropWhile Char.isDigit)
    | _ => some (sign.1 ++ d1, r1)

/-- Leftmost search for `@(-?\d+\.?\d*),(-?\d+\.?\d*)`. -/
def coordScan : List Char → Option (List Char × List Char)
  | [] => none
  | c :: rest =>
    if c = '@' then
      match numTry rest with
      | some (n1, r1) =>
        match r1 with
        | ',' :: r2 =>
          match numTry r2 with
          | some (n2, _) => some (n1, n2)
          | none => coordScan rest
        | _ => coordScan rest
      | none => coordScan rest
    else coordScan rest

/-- Leftmost search for `!3d(-?\d+\.?\d*)!4d(-?\d+\.?\d*)`. -/
def coord2Scan : List Char → Option (List Char × List Char)
  | [] => none
  | c :: rest =>
    if ([ '!', '3', 'd' ] : List Char).isPrefixOf (c :: rest) then
      match numTry ((c :: rest).drop 3) with
      | some (n1, r1) =>
        if ([ '!', '4', 'd' ] : List Char).isPrefixOf r1 then
          match numTry (r1.drop 3) with
          | some (n2, _) => some (n1, n2)
          | none => coord2Scan rest
        else coord2Scan rest
      | none => coord2Scan rest
    else coord2Scan rest

/-- Embedding of `utils.extract_coordinates_from_url`: pattern `@lat,lng`
first, then `!3d lat !4d lng`; the captured floats are represented by their
numeral strings (the `float()` conversion cannot fail on these captures). -/
def extract_coordinates_from_url (url : List Char) : Option (List Char × List Char) :=
  if url = [] then none
  else
    match coordScan url with
    | some p => some p
    | none => coord2Scan url

/-- Leftmost search for `place_id=([a-zA-Z0-9_-]+)`. -/
def pid1Scan : List Char → Option (List Char)
  | [] => none
  | c :: rest =>
    if (String.toList "place_id=").isPrefixOf (c :: rest) then
      let run := ((c :: rest).drop 9).takeWhile idChar
      if run = [] then pid1Scan rest else some run
    else pid1Scan rest

/-- The tail `.*?1s([a-zA-Z0-9_-]+)` of the second place-id pattern: the lazy
dot cannot cross a newline, so we look for the first `1s` that is followed by
at least one id character, failing on a newline. -/
def oneS : List Char → Option (List Char)
  | [] => none
  | c :: rest =>
    match c, rest with
    | '1', 's' :: rest2 =>
      let run := rest2.takeWhile idChar
      if run = [] then oneS rest else some run
    | _, _ => if c = '\n' then none else oneS rest

/-- Match `[^/]+/data=.*?1s([a-zA-Z0-9_-]+)` immediately after a `/place/`
occurrence.  The greedy `[^/]+` must end at the next slash, so no backtracking
arises. -/
def pid2At (s : List Char) : Option (List Char) :=
  let seg := s.takeWhile (fun c => c ≠ '/')
  if seg = [] then none
  else
    let s1 := s.dropWhile (fun c => c ≠ '/')
    if (String.toList "/data=").isPrefixOf s1 then oneS (s1.drop 6)
    else none

/-- Leftmost search for `/place/[^/]+/data=.*?1s([a-zA-Z0-9_-]+)`. -/
def pid2Scan : List Char → Option (List Char)
  | [] => none
  | c :: rest =>
    if (String.toList "/place/").isPrefixOf (c :: rest) then
      match pid2At ((c :: rest).drop 7) with
      | some r => some r
      | none => pid2Scan rest
    else pid2Scan rest

/-- Embedding of `utils.extract_place_id`: the `place_id=` query-parameter
pattern first, then the `/place/.../data=...1s` marker pattern. -/
def extract_place_id (url : List Char) : Option (List Char) :=
  if url = [] then none
  else
    match pid1Scan url with
    | some r => some r
    | none => pid2Scan url

/-- Embedding of `utils.normalize_address`: empty in, empty out; otherwise trim
and collapse whitespace runs. -/
def normalize_address (address : List Char) : List Char :=
  if address = [] then [] else collapseWs (pyStrip address)

/-- Association-list update with Python-dict semantics: overwrite in place when
the key exists, append otherwise. -/
def upsert {κ α : Type} [DecidableEq κ] (k : κ) (v : α) : List (κ × α) → List (κ × α)
  | [] => [(k, v)]
  | (k0, v0) :: rest => if k0 = k then (k, v) :: rest else (k0, v0) :: upsert k v rest

/-- Association-list lookup, Python `dict.get`. -/
def dget {κ α : Type} [DecidableEq κ] (k : κ) : List (κ × α) → Option α
  | [] => none
  | (k0, v0) :: rest => if k0 = k then some v0 else dget k rest

/-- Python `key in dict`. -/
def dmem {κ α : Type} [DecidableEq κ] (k : κ) (d : List (κ × α)) : Bool :=
  match d with
  | [] => false
  | (k0, _) :: rest => k0 = k || dmem k rest

/-- The fixed weekday vocabulary of `utils.parse_hours`, in source order. -/
def days : List (List Char) :=
  [String.toList "Monday", String.toList "Tuesday", String.toList "Wednesday",
   String.toList "Thursday", String.toList "Friday", String.toList "Saturday",
   String.toList "Sunday"]

/-- One line of `utils.parse_hours`: state is the hours dict plus the current
day.  A line starting with a day name removes every occurrence of the day name
from it, trims, and stores the remainder only when non-empty; otherwise a
non-blank line with a current day overwrites that day's entry. -/
def hoursStep (st : List (List Char × List Char) × Option (List Char)) (rawLine : List Char) :
    List (List Char × List Char) × Option (List Char) :=
  let line := pyStrip rawLine
  match days.find? (fun d => d.isPrefixOf line) with
  | some day =>
    let hoursPart := pyStrip (pyRemoveAll day line)
    (if hoursPart ≠ [] then upsert day hoursPart st.1 else st.1, some day)
  | none =>
    match st.2 with
    | some currentDay => if line ≠ [] then (upsert currentDay line st.1, some currentDay) else st
    | none => st

/-- Embedding of `utils.parse_hours`. -/
def parse_hours (hours_text : List Char) : List (List Char × List Char) :=
  if hours_text = [] then []
  else ((pySplitCh '\n' hours_text).foldl hoursStep ([], none)).1

/-- State of `utils.RateLimiter`: configuration plus the recorded timestamps. -/
structure RateLimiter where
  max_requests : Nat
  time_window : ℚ
  requests : List ℚ

/-- Embedding of `RateLimiter.wait_if_needed` at call time `now`: prune stale
timestamps, compute the sleep duration (zero when under the limit or when the
computed wait is non-positive), and record `now` — the pre-sleep call time, as
the source does.  The source indexes `requests[0]`, which is only reachable
with a non-empty pruned list whenever `max_requests ≥ 1`; `headD` supplies the
unreachable default.  Returns the slept duration and the new state. -/
def wait_if_needed (rl : RateLimiter) (now : ℚ) : ℚ × RateLimiter :=
  let reqs := rl.requests.filter (fun t => now - t < rl.time_window)
  let sleepTime : ℚ :=
    if rl.max_requests ≤ reqs.length then rl.time_window - (now - reqs.headD 0)
    else 0
  let slept := if 0 < sleepTime then sleepTime else 0
  (slept, { rl with requests := reqs ++ [now] })

/-- Keys of the business-record dict built by the parsers. -/
inductive RKey
  | title | rating | reviewsCount | category | priceLevel | url | placeId
  | coordinates | address | phone | website | hours | plusCode | reviews
deriving DecidableEq, Repr

/-- Values stored in a business-record dict.  `vNone` is Python `None` stored
under a present key; rating and coordinate floats are represented by their
captured numeral strings; `vNil` is the empty reviews placeholder list. -/
inductive Val
  | vNone
  | vStr (s : List Char)
  | vNat (n : Nat)
  | vNum (numeral : List Char)
  | vCoords (latLng : List Char × List Char)
  | vHours (h : List (List Char × List Char))
  | vNil
deriving DecidableEq, Repr

/-- A business record: a Python dict from keys to values, in insertion order. -/
abbrev RecordT := List (RKey × Val)

/-- Python truthiness of a stored value (`if place_id:`, `if not url:`).  A
`vNum` numeral is falsy exactly when its float value is zero, i.e. when it has
no nonzero digit. -/
def valTruthy : Val → Bool
  | Val.vNone => false
  | Val.vStr s => s ≠ []
  | Val.vNat n => n ≠ 0
  | Val.vNum s => s.any (fun c => c.isDigit && c ≠ '0')
  | Val.vCoords _ => true
  | Val.vHours h => h ≠ []
  | Val.vNil => false

/-- The truthy place id of a record: `business.get('placeId')` followed by the
source's `if place_id:` test.  `none` when the key is absent, holds `None`, or
holds a falsy value. -/
def tpid (r : RecordT) : Option Val :=
  match dget RKey.placeId r with
  | some v => if valTruthy v then some v else none
  | none => none

/-- Python `⟨**a, **b⟩` dict merge: start from `a` and write every pair of `b`
over it in order, so detail values win on key collision. -/
def dmerge (a b : RecordT) : RecordT :=
  b.foldl (fun acc kv => upsert kv.1 kv.2 acc) a

/-- Wrap an optional extractor result the way a Python assignment
`data[k] = f(x)` does: a missing result is stored as `None`. -/
def optVal : Option Val → Val
  | none => Val.vNone
  | some v => v

/-- Environment of one result card, holding the outcomes of the DOM reads that
`parser.parse_business_card` performs: whether the anchor exists, the card's
full text, the inner text found by each of the four name selectors (in source
order, `none` for a missing element or a raising read), the star glyph's
aria-label (outer `none` when the glyph is missing, inner `none` when the
attribute is), and the anchor's href attribute. -/
structure Card where
  hasLink : Bool
  cardText : List Char
  nameSel : List (Option (List Char))
  ratingAria : Option (Option (List Char))
  href : Option (List Char)

/-- First name-selector hit: a selector's text is accepted when it is truthy
and strips to a non-empty string, which becomes the title. -/
def firstNameHit : List (Option (List Char)) → Option (List Char)
  | [] => none
  | none :: rest => firstNameHit rest
  | some t :: rest =>
    if t ≠ [] && pyStrip t ≠ [] then some (pyStrip t) else firstNameHit rest

/-- Title resolution of the card parser: the selector chain first, then the
first line of the card text provided it is non-empty, does not start with a
digit and contains no star glyph. -/
def cardTitle (c : Card) : Option (List Char) :=
  match firstNameHit c.nameSel with
  | some t => some t
  | none =>
    match pySplitCh '\n' c.cardText with
    | [] => none
    | l0 :: _ =>
      let potential := pyStrip l0
      match potential with
      | [] => none
      | p0 :: _ => if !p0.isDigit && !potential.contains '★' then some potential else none

/-- Rating step of the card parser: only when the star glyph exists and its
aria-label is truthy is the rating key written (possibly with `None`). -/
def cardRatingStep (c : Card) (d : RecordT) : RecordT :=
  match c.ratingAria with
  | none => d
  | some none => d
  | some (some s) =>
    if s ≠ [] then upsert RKey.rating (optVal ((extract_rating s).map Val.vNum)) d else d

/-- Reviews step of the card parser: attempted only when the word `review`
occurs in the lower-cased card text. -/
def cardReviewsStep (c : Card) (d : RecordT) : RecordT :=
  if decide ((String.toList "review") <:+: (c.cardText.map Char.toLower)) then
    upsert RKey.reviewsCount (optVal ((extract_reviews_count c.cardText).map Val.vNat)) d
  else d

/-- Category clause of one line of the card parser: the first dot-separated
segment of the line becomes the category when none is set yet, the line has a
middle dot and the stripped segment is non-empty and does not start with a
digit. -/
def cardCatPart (d : RecordT) (line : List Char) : RecordT :=
  if !dmem RKey.category d && line.contains '·' then
    match pySplitCh '·' line with
    | [] => d
    | p0 :: _ =>
      match pyStrip p0 with
      | [] => d
      | c0 :: _ => if !c0.isDigit then upsert RKey.category (Val.vStr (pyStrip p0)) d else d
  else d

/-- Price-level clause of one line of the card parser: when the line carries a
dollar glyph and no price level is set yet, the first dot-separated segment
containing the glyph is stored stripped. -/
def cardPricePart (d1 : RecordT) (line : List Char) : RecordT :=
  if line.contains '$' && !dmem RKey.priceLevel d1 then
    match (pySplitCh '·' line).find? (fun part => part.contains '$') with
    | some part =>
      if pyStrip part ≠ [] then upsert RKey.priceLevel (Val.vStr (pyStrip part)) d1 else d1
    | none => d1
  else d1

/-- One non-title line of the card parser's category / price loop: the line is
stripped, a blank line is skipped, then the category clause runs before the
price clause on the updated dict, as in the source loop body. -/
def cardLineStep (d : RecordT) (rawLine : List Char) : RecordT :=
  let line := pyStrip rawLine
  if line = [] then d else cardPricePart (cardCatPart d line) line

/-- Category and price-level loop over every line after the first. -/
def cardCatPriceStep (c : Card) (d : RecordT) : RecordT :=
  (pySplitCh '\n' c.cardText).tail.foldl cardLineStep d

/-- URL step of the card parser: with a truthy href, qualify a site-relative
href against the origin, store the url, the derived place id (possibly `None`)
and, when truthy, the derived coordinates. -/
def cardUrlStep (c : Card) (d : RecordT) : RecordT :=
  match c.href with
  | none => d
  | some h =>
    if h = [] then d
    else
      let url := if ([ '/' ] : List Char).isPrefixOf h
        then String.toList "https://www.google.com" ++ h else h
      let d1 := upsert RKey.url (Val.vStr url) d
      let d2 := upsert RKey.placeId (optVal ((extract_place_id url).map Val.vStr)) d1
      match extract_coordinates_from_url url with
      | some p => upsert RKey.coordinates (Val.vCoords p) d2
      | none => d2

/-- Embedding of `parser.parse_business_card`: reject the card when the anchor
is missing or no title can be derived, otherwise build the partial record in
source order. -/
def parse_business_card (c : Card) : Option RecordT :=
  if !c.hasLink then none
  else
    match cardTitle c with
    | none => none
    | some t =>
      some (cardUrlStep c (cardCatPriceStep c (cardReviewsStep c (cardRatingStep c
        [(RKey.title, Val.vStr t)]))))

/-- Environment of a business detail page, holding the outcomes of the DOM
reads that `parser.parse_business_details` performs, in source order: whether
the wait for the `h1` heading succeeds (a timeout aborts the call and it
returns what was gathered so far, which is the empty dict), then each
element's inner text (`none` when the element is missing), the star glyph's
aria-label (the attribute itself may be `None`), the website link's href
(likewise), whether the hours button exists (it is clicked before the
container is read), and the page's current URL. -/
structure DetailPage where
  h1Wait : Bool
  h1Text : Option (List Char)
  ratingAria : Option (Option (List Char))
  reviewsText : Option (List Char)
  addressText : Option (List Char)
  phoneText : Option (List Char)
  websiteHref : Option (Option (List Char))
  categoryText : Option (List Char)
  hoursButton : Bool
  hoursText : Option (List Char)
  plusCodeText : Option (List Char)
  currentUrl : List Char

/-- Step of the detail parser that stores the heading text as title. -/
def detTitleStep (pg : DetailPage) (d : RecordT) : RecordT :=
  match pg.h1Text with
  | some t => upsert RKey.title (Val.vStr t) d
  | none => d

/-- Step of the detail parser for the rating: written whenever the glyph
exists, even when the attribute or the extraction comes back empty. -/
def detRatingStep (pg : DetailPage) (d : RecordT) : RecordT :=
  match pg.ratingAria with
  | some a => upsert RKey.rating (optVal ((a.bind extract_rating).map Val.vNum)) d
  | none => d

/-- Step of the detail parser for the reviews count. -/
def detReviewsStep (pg : DetailPage) (d : RecordT) : RecordT :=
  match pg.reviewsText with
  | some t => upsert RKey.reviewsCount (optVal ((extract_reviews_count t).map Val.vNat)) d
  | none => d

/-- Step of the detail parser for the normalized address. -/
def detAddressStep (pg : DetailPage) (d : RecordT) : RecordT :=
  match pg.addressText with
  | some t => upsert RKey.address (Val.vStr (normalize_address t)) d
  | none => d

/-- Step of the detail parser for the phone: the key is written whenever the
phone button exists, with `None` when the extraction fails. -/
def detPhoneStep (pg : DetailPage) (d : RecordT) : RecordT :=
  match pg.phoneText with
  | some t => upsert RKey.phone (optVal ((extract_phone t).map Val.vStr)) d
  | none => d

/-- Step of the detail parser for the website href, stored raw (possibly
`None`). -/
def detWebsiteStep (pg : DetailPage) (d : RecordT) : RecordT :=
  match pg.websiteHref with
  | some h => upsert RKey.website (optVal (h.map Val.vStr)) d
  | none => d

/-- Step of the detail parser for the category text. -/
def detCategoryStep (pg : DetailPage) (d : RecordT) : RecordT :=
  match pg.categoryText with
  | some t => upsert RKey.category (Val.vStr t) d
  | none => d

/-- Step of the detail parser for the hours: only reached when the hours
button exists (it is clicked first), and only stored when the expanded
container is found. -/
def detHoursStep (pg : DetailPage) (d : RecordT) : RecordT :=
  if pg.hoursButton then
    match pg.hoursText with
    | some t => upsert RKey.hours (Val.vHours (parse_hours t)) d
    | none => d
  else d

/-- Step of the detail parser for the plus code. -/
def detPlusCodeStep (pg : DetailPage) (d : RecordT) : RecordT :=
  match pg.plusCodeText with
  | some t => upsert RKey.plusCode (Val.vStr t) d
  | none => d

/-- Final steps of the detail parser: the current URL, the place id re-derived
from it (possibly `None`) and, when truthy, the coordinates. -/
def detUrlStep (pg : DetailPage) (d : RecordT) : RecordT :=
  let d1 := upsert RKey.url (Val.vStr pg.currentUrl) d
  let d2 := upsert RKey.placeId (optVal ((extract_place_id pg.currentUrl).map Val.vStr)) d1
  match extract_coordinates_from_url pg.currentUrl with
  | some p => upsert RKey.coordinates (Val.vCoords p) d2
  | none => d2

/-- Reviews placeholder of the detail parser, written only in deep-scrape
mode. -/
def detReviewsListStep (deep_scrape : Bool) (d : RecordT) : RecordT :=
  if deep_scrape then upsert RKey.reviews Val.vNil d else d

/-- Embedding of `parser.parse_business_details`: an empty dict when the wait
for the heading times out, otherwise the detail record built in source order.
The scraper always calls it with `deep_scrape = false`. -/
def parse_business_details (pg : DetailPage) (deep_scrape : Bool) : RecordT :=
  if !pg.h1Wait then []
  else
    detReviewsListStep deep_scrape (detUrlStep pg (detPlusCodeStep pg (detHoursStep pg
      (detCategoryStep pg (detWebsiteStep pg (detPhoneStep pg (detAddressStep pg
        (detReviewsStep pg (detRatingStep pg (detTitleStep pg []))))))))))

/-- Observable actions of the traversal: a rate-limiter acquisition, the Card
Parser applied to the card at an index, and a deep-scrape navigation to the
record at an index. -/
inductive Event
  | acquire
  | parse (i : Nat)
  | visit (i : Nat)
deriving DecidableEq, Repr

/-- Loop of `scraper.GoogleMapsScraper.extract_business_cards` over the
materialized cards, each represented by its Card-Parser outcome.  `i` is the
document-order index of the next card, `acc` the admitted records, `seen` the
set of already-seen truthy place ids.  Per iteration: stop when the limit is
reached, otherwise parse the card (emitting `Event.parse i`; the source
performs no rate limiting here — its comments read `No rate limiting for
speed` and `Removed rate limiter for faster scraping`), drop a parsed record
whose truthy place id was already seen, and append the rest. -/
def extractGo : List (Option RecordT) → Nat → Nat → List RecordT → List Val →
    List RecordT × List Event
  | [], _, _, acc, _ => (acc, [])
  | c :: rest, i, maxResults, acc, seen =>
    if maxResults ≤ acc.length then (acc, [])
    else
      match c with
      | none =>
        let r := extractGo rest (i + 1) maxResults acc seen
        (r.1, Event.parse i :: r.2)
      | some b =>
        match tpid b with
        | some p =>
          if p ∈ seen then
            let r := extractGo rest (i + 1) maxResults acc seen
            (r.1, Event.parse i :: r.2)
          else
            let r := extractGo rest (i + 1) maxResults (acc ++ [b]) (p :: seen)
            (r.1, Event.parse i :: r.2)
        | none =>
          let r := extractGo rest (i + 1) maxResults (acc ++ [b]) seen
          (r.1, Event.parse i :: r.2)

/-- Records returned by `extract_business_cards`. -/
def extract_business_cards (cards : List (Option RecordT)) (maxResults : Nat) : List RecordT :=
  (extractGo cards 0 maxResults [] []).1

/-- Event trace of `extract_business_cards`. -/
def extractTrace (cards : List (Option RecordT)) (maxResults : Nat) : List Event :=
  (extractGo cards 0 maxResults [] []).2

/-- Outcome of one deep-scrape visit: the navigation raises, or the detail
parser returns a record (a detail-page timeout is the empty record, since
`parse_business_details` catches it internally). -/
inductive DeepResult
  | navError
  | details (d : RecordT)

/-- Result of one iteration of `deep_scrape_businesses` for one record: a
record without a truthy url is kept as is; a navigation error keeps the
pre-deep-scrape record; otherwise the detail record is merged over it. -/
def deepStep (b : RecordT) (r : DeepResult) : RecordT :=
  match dget RKey.url b with
  | none => b
  | some v =>
    if valTruthy v then
      match r with
      | DeepResult.navError => b
      | DeepResult.details d => dmerge b d
    else b

/-- Loop of `scraper.GoogleMapsScraper.deep_scrape_businesses`: one visit per
admitted record in order, emitting `Event.visit i` whenever a navigation is
attempted; a per-record failure appends the original record and continues. -/
def deepGo : List RecordT → (Nat → DeepResult) → Nat → List RecordT × List Event
  | [], _, _ => ([], [])
  | b :: rest, res, i =>
    let r := deepGo rest res (i + 1)
    match dget RKey.url b with
    | none => (b :: r.1, r.2)
    | some v =>
      if valTruthy v then
        match res i with
        | DeepResult.navError => (b :: r.1, Event.visit i :: r.2)
        | DeepResult.details d => (dmerge b d :: r.1, Event.visit i :: r.2)
      else (b :: r.1, r.2)

/-- Records returned by `deep_scrape_businesses`, given the outcome of each
visit. -/
def deep_scrape_businesses (businesses : List RecordT) (res : Nat → DeepResult) : List RecordT :=
  (deepGo businesses res 0).1

/-- The fatal exceptions the scrape workflow can raise internally: only
`initialize` (creating the browser context and page) raises; `search`,
`scroll_results`, `extract_business_cards` and `deep_scrape_businesses` all
catch their own exceptions. -/
inductive ScrapeFatal
  | sessionInit
deriving DecidableEq, Repr

/-- Environment of one scrape run: whether `initialize` succeeds, whether
`search` returns `True` (it returns `False` on timeout, a no-results
indicator, a CAPTCHA, or any exception), the Card-Parser outcome of each
materialized card in document order, and the outcome of each deep-scrape
visit.  `scroll_results` is called between search and extraction but never
raises and its return value is ignored. -/
structure ScrapeEnv where
  initOk : Bool
  searchOk : Bool
  cards : List (Option RecordT)
  deepRes : Nat → DeepResult

/-- Body of `scraper.GoogleMapsScraper.scrape` (the `try` block): an
`initialize` failure raises; a failed search returns the empty list; otherwise
extraction runs and, when deep scraping is requested and found businesses (a
truthy list), the deep-scrape loop runs.  The second component is the event
trace. -/
def scrapeRun (env : ScrapeEnv) (max_results : Nat) (deep_scrape : Bool) :
    Except ScrapeFatal (List RecordT) × List Event :=
  if !env.initOk then (Except.error ScrapeFatal.sessionInit, [])
  else if !env.searchOk then (Except.ok [], [])
  else
    let businesses := extract_business_cards env.cards max_results
    if deep_scrape && !businesses.isEmpty then
      (Except.ok (deep_scrape_businesses businesses env.deepRes),
       extractTrace env.cards max_results ++ (deepGo businesses env.deepRes 0).2)
    else (Except.ok businesses, extractTrace env.cards max_results)

/-- Embedding of `scrape` as seen by the caller: the surrounding
`try ... except Exception: return []` converts every internal exception into
an empty result list. -/
def scrape (env : ScrapeEnv) (max_results : Nat) (deep_scrape : Bool) :
    Except ScrapeFatal (List RecordT) :=
  match (scrapeRun env max_results deep_scrape).1 with
  | Except.ok l => Except.ok l
  | Except.error _ => Except.ok []

/-- Event trace of one scrape run. -/
def scrapeTrace (env : ScrapeEnv) (max_results : Nat) (deep_scrape : Bool) : List Event :=
  (scrapeRun env max_results deep_scrape).2

/-- Limit-free reformulation of the extraction loop used in proofs: the same
decisions as `extractGo`, producing the records directly with a remaining
budget `n`. -/
def extractPure (cards : List (Option RecordT)) (n : Nat) (seen : List Val) : List RecordT :=
  match n, cards with
  | 0, _ => []
  | _ + 1, [] => []
  | n0 + 1, none :: rest => extractPure rest (n0 + 1) seen
  | n0 + 1, some b :: rest =>
    match tpid b with
    | some p =>
      if p ∈ seen then extractPure rest (n0 + 1) seen
      else b :: extractPure rest n0 (p :: seen)
    | none => b :: extractPure rest n0 seen

theorem extractPure_zero (cards : List (Option RecordT)) (seen : List Val) :
    extractPure cards 0 seen = [] := by
  simp [extractPure]

theorem extractPure_nil (n : Nat) (seen : List Val) :
    extractPure [] n seen = [] := by
  cases n <;> simp [extractPure]

theorem extractGo_fst (cards : List (Option RecordT)) (maxResults : Nat) :
    ∀ (i : Nat) (acc : List RecordT) (seen : List Val),
    (extractGo cards i maxResults acc seen).1 =
      acc ++ extractPure cards (maxResults - acc.length) seen := by
  induction cards with
  | nil =>
    intro i acc seen
    simp [extractGo, extractPure_nil]
  | cons c rest ih =>
    intro i acc seen
    by_cases hle : maxResults ≤ acc.length
    · have h0 : maxResults - acc.length = 0 := Nat.sub_eq_zero_of_le hle
      simp [extractGo, hle, h0, extractPure_zero]
    · obtain ⟨m, hm⟩ : ∃ m, maxResults - acc.length = m + 1 := by
        refine ⟨maxResults - acc.length - 1, ?_⟩
        omega
      cases c with
      | none =>
        simp only [extractGo, if_neg hle]
        rw [ih, hm]
        simp [extractPure]
      | some b =>
        cases htp : tpid b with
        | some p =>
          by_cases hp : p ∈ seen
          · simp only [extractGo, if_neg hle, htp, if_pos hp]
            rw [ih, hm]
            simp [extractPure, htp, hp]
          · simp only [extractGo, if_neg hle, htp, if_neg hp]
            rw [ih, hm]
            have hm2 : maxResults - (acc ++ [b]).length = m := by
              simp only [List.length_append, List.length_cons, List.length_nil]
              omega
            rw [hm2]
            simp [extractPure, htp, hp]
        | none =>
          simp only [extractGo, if_neg hle, htp]
          rw [ih]
          have hm2 : maxResults - (acc ++ [b]).length = m := by
            simp only [List.length_append, List.length_cons, List.length_nil]
            omega
          rw [hm2, hm]
          simp [extractPure, htp]

theorem extract_business_cards_eq (cards : List (Option RecordT)) (maxResults : Nat) :
    extract_business_cards cards maxResults = extractPure cards maxResults [] := by
  unfold extract_business_cards
  rw [extractGo_fst]
  simp

theorem extractPure_length_le (cards : List (Option RecordT)) :
    ∀ (n : Nat) (seen : List Val), (extractPure cards n seen).length ≤ n := by
  induction cards with
  | nil => intro n seen; simp [extractPure_nil]
  | cons c rest ih =>
    intro n seen
    cases n with
    | zero => simp [extractPure_zero]
    | succ n0 =>
      cases c with
      | none =>
        simpa [extractPure] using ih (n0 + 1) seen
      | some b =>
        cases htp : tpid b with
        | some p =>
          by_cases hp : p ∈ seen
          · simpa [extractPure, htp, hp] using ih (n0 + 1) seen
          · have := ih n0 (p :: seen)
            simp only [extractPure, htp, if_neg hp, List.length_cons]
            omega
        | none =>
          have := ih n0 seen
          simp only [extractPure, htp, List.length_cons]
          omega

theorem extractPure_take (cards : List (Option RecordT)) :
    ∀ (n m : Nat) (seen : List Val), n ≤ m →
    extractPure cards n seen = (extractPure cards m seen).take n := by
  induction cards with
  | nil => intro n m seen _; simp [extractPure_nil]
  | cons c rest ih =>
    intro n m seen hnm
    cases n with
    | zero => simp [extractPure_zero]
    | succ n0 =>
      obtain ⟨m0, rfl⟩ : ∃ m0, m = m0 + 1 := ⟨m - 1, by omega⟩
      cases c with
      | none =>
        simpa [extractPure] using ih (n0 + 1) (m0 + 1) seen hnm
      | some b =>
        cases htp : tpid b with
        | some p =>
          by_cases hp : p ∈ seen
          · simpa [extractPure, htp, hp] using ih (n0 + 1) (m0 + 1) seen hnm
          · simp only [extractPure, htp, if_neg hp, List.take_succ_cons]
            rw [ih n0 m0 (p :: seen) (by omega)]
        | none =>
          simp only [extractPure, htp, List.take_succ_cons]
          rw [ih n0 m0 seen (by omega)]

theorem extractPure_mem (cards : List (Option RecordT)) :
    ∀ (n : Nat) (seen : List Val) (b : RecordT),
    b ∈ extractPure cards n seen → some b ∈ cards := by
  induction cards with
  | nil => intro n seen b hb; rw [extractPure_nil] at hb; cases hb
  | cons c rest ih =>
    intro n seen b hb
    cases n with
    | zero => rw [extractPure_zero] at hb; cases hb
    | succ n0 =>
      cases c with
      | none =>
        simp only [extractPure] at hb
        exact List.mem_cons_of_mem _ (ih _ _ _ hb)
      | some b0 =>
        cases htp : tpid b0 with
        | some p =>
          by_cases hp : p ∈ seen
          · simp only [extractPure, htp, if_pos hp] at hb
            exact List.mem_cons_of_mem _ (ih _ _ _ hb)
          · simp only [extractPure, htp, if_neg hp] at hb
            rcases List.mem_cons.1 hb with h | h
            · exact h ▸ List.mem_cons_self _ _
            · exact List.mem_cons_of_mem _ (ih _ _ _ h)
        | none =>
          simp only [extractPure, htp] at hb
          rcases List.mem_cons.1 hb with h | h
          · exact h ▸ List.mem_cons_self _ _
          · exact List.mem_cons_of_mem _ (ih _ _ _ h)

theorem extractPure_nodup (cards : List (Option RecordT)) :
    ∀ (n : Nat) (seen : List Val),
    ((extractPure cards n seen).filterMap tpid).Nodup ∧
      ∀ p ∈ (extractPure cards n seen).filterMap tpid, p ∉ seen := by
  induction cards with
  | nil => intro n seen; simp [extractPure_nil]
  | cons c rest ih =>
    intro n seen
    cases n with
    | zero => simp [extractPure_zero]
    | succ n0 =>
      cases c with
      | none => simpa [extractPure] using ih (n0 + 1) seen
      | some b =>
        cases htp : tpid b with
        | some p =>
          by_cases hp : p ∈ seen
          · simpa [extractPure, htp, hp] using ih (n0 + 1) seen
          · obtain ⟨ihn, ihs⟩ := ih n0 (p :: seen)
            simp only [extractPure, htp, if_neg hp, List.filterMap_cons, htp]
            constructor
            · refine List.Nodup.cons ?_ ihn
              intro hmem
              exact (ihs p hmem) (List.mem_cons_self _ _)
            · intro q hq
              rcases List.mem_cons.1 hq with h | h
              · exact h ▸ hp
              · intro hqs
                exact (ihs q h) (List.mem_cons_of_mem _ hqs)
        | none =>
          obtain ⟨ihn, ihs⟩ := ih n0 seen
          simp only [extractPure, htp, List.filterMap_cons, htp]
          exact ⟨ihn, ihs⟩

theorem extractPure_first (cards : List (Option RecordT)) :
    ∀ (n : Nat) (seen : List Val) (b : RecordT) (p : Val),
    b ∈ extractPure cards n seen → tpid b = some p →
    p ∉ seen ∧ (cards.filterMap id).find? (fun x => decide (tpid x = some p)) = some b := by
  induction cards with
  | nil => intro n seen b p hb _; rw [extractPure_nil] at hb; cases hb
  | cons c rest ih =>
    intro n seen b p hb hbp
    cases n with
    | zero => rw [extractPure_zero] at hb; cases hb
    | succ n0 =>
      cases c with
      | none =>
        simp only [extractPure] at hb
        simpa [List.filterMap_cons] using ih (n0 + 1) seen b p hb hbp
      | some b0 =>
        cases htp : tpid b0 with
        | some q =>
          by_cases hq : q ∈ seen
          · simp only [extractPure, htp, if_pos hq] at hb
            obtain ⟨hps, hfind⟩ := ih (n0 + 1) seen b p hb hbp
            have hne : ¬(tpid b0 = some p) := by
              rw [htp]
              intro hcontra
              have hqp : q = p := Option.some_injective _ hcontra
              exact hps (hqp ▸ hq)
            refine ⟨hps, ?_⟩
            simp only [List.filterMap_cons, Option.some.injEq, id]
            rw [List.find?_cons_of_neg _ (by simpa using hne)]
            exact hfind
          · simp only [extractPure, htp, if_neg hq] at hb
            rcases List.mem_cons.1 hb with h | h
            · subst h
              have hpq : p = q := Option.some_injective _ (hbp.symm.trans htp)
              subst hpq
              refine ⟨hq, ?_⟩
              simp only [List.filterMap_cons, id]
              rw [List.find?_cons_of_pos _ (by simp [hbp])]
            · obtain ⟨hps, hfind⟩ := ih n0 (q :: seen) b p h hbp
              have hpnq : p ≠ q := fun hcontra => hps (hcontra ▸ List.mem_cons_self _ _)
              refine ⟨fun hcontra => hps (List.mem_cons_of_mem _ hcontra), ?_⟩
              simp only [List.filterMap_cons, id]
              rw [List.find?_cons_of_neg _ (by simp [htp, hpnq.symm])]
              exact hfind
        | none =>
          simp only [extractPure, htp] at hb
          rcases List.mem_cons.1 hb with h | h
          · subst h
            rw [hbp] at htp
            cases htp
          · obtain ⟨hps, hfind⟩ := ih n0 seen b p h hbp
            refine ⟨hps, ?_⟩
            simp only [List.filterMap_cons, id]
            rw [List.find?_cons_of_neg _ (by simp [htp])]
            exact hfind

theorem extractPure_nonePid (cards : List (Option RecordT)) :
    ∀ (n : Nat) (seen : List Val), (cards.filterMap id).length ≤ n →
    (extractPure cards n seen).filter (fun b => (tpid b).isNone) =
      (cards.filterMap id).filter (fun b => (tpid b).isNone) := by
  induction cards with
  | nil => intro n seen _; simp [extractPure_nil]
  | cons c rest ih =>
    intro n seen hlen
    cases c with
    | none =>
      have h2 : List.filterMap id (none :: rest) = List.filterMap id rest := by simp
      rw [h2]
      rw [h2] at hlen
      cases n with
      | zero =>
        have hnil : rest.filterMap id = [] :=
          List.eq_nil_of_length_eq_zero (Nat.le_zero.1 hlen)
        rw [extractPure_zero, hnil]
      | succ n0 =>
        have h1 : extractPure (none :: rest) (n0 + 1) seen = extractPure rest (n0 + 1) seen := by
          simp [extractPure]
        rw [h1]
        exact ih (n0 + 1) seen hlen
    | some b =>
      have h2 : List.filterMap id (some b :: rest) = b :: List.filterMap id rest := by simp
      rw [h2]
      have hlen2 : (rest.filterMap id).length + 1 ≤ n := by
        rw [h2] at hlen
        simpa using hlen
      obtain ⟨n0, rfl⟩ : ∃ n0, n = n0 + 1 := ⟨n - 1, by omega⟩
      cases htp : tpid b with
      | some p =>
        by_cases hp : p ∈ seen
        · have h1 : extractPure (some b :: rest) (n0 + 1) seen =
              extractPure rest (n0 + 1) seen := by
            simp [extractPure, htp, hp]
          rw [h1, List.filter_cons]
          simp only [htp, Option.isNone_some, Bool.false_eq_true, if_false]
          exact ih (n0 + 1) seen (by omega)
        · have h1 : extractPure (some b :: rest) (n0 + 1) seen =
              b :: extractPure rest n0 (p :: seen) := by
            simp [extractPure, htp, hp]
          rw [h1, List.filter_cons, List.filter_cons]
          simp only [htp, Option.isNone_some, Bool.false_eq_true, if_false]
          exact ih n0 (p :: seen) (by omega)
      | none =>
        have h1 : extractPure (some b :: rest) (n0 + 1) seen =
            b :: extractPure rest n0 seen := by
          simp [extractPure, htp]
        rw [h1, List.filter_cons, List.filter_cons]
        simp only [htp, Option.isNone_none, if_true]
        rw [ih n0 seen (by omega)]

theorem extractGo_trace (cards : List (Option RecordT)) (maxResults : Nat) :
    ∀ (i : Nat) (acc : List RecordT) (seen : List Val),
    ∃ k, k ≤ cards.length ∧
      (extractGo cards i maxResults acc seen).2 =
        (List.range k).map (fun j => Event.parse (i + j)) := by
  induction cards with
  | nil =>
    intro i acc seen
    exact ⟨0, Nat.le_refl 0, by simp [extractGo]⟩
  | cons c rest ih =>
    intro i acc seen
    by_cases hle : maxResults ≤ acc.length
    · exact ⟨0, Nat.zero_le _, by simp [extractGo, hle]⟩
    · have step : ∀ (acc2 : List RecordT) (seen2 : List Val),
          (∃ k, k ≤ rest.length ∧ (extractGo rest (i + 1) maxResults acc2 seen2).2 =
            (List.range k).map (fun j => Event.parse (i + 1 + j))) →
          ∃ k, k ≤ rest.length + 1 ∧
            Event.parse i :: (extractGo rest (i + 1) maxResults acc2 seen2).2 =
              (List.range k).map (fun j => Event.parse (i + j)) := by
        intro acc2 seen2 ⟨k, hk, htr⟩
        refine ⟨k + 1, by omega, ?_⟩
        rw [htr, List.range_succ_eq_map]
        simp only [List.map_cons, List.map_map, Nat.add_zero]
        congr 1
        apply List.map_congr_left
        intro j _
        simp only [Function.comp_apply]
        congr 1
        omega
      cases c with
      | none =>
        obtain ⟨k, hk, htr⟩ := step acc seen (ih (i + 1) acc seen)
        exact ⟨k, by simpa using hk, by simpa [extractGo, hle] using htr⟩
      | some b =>
        cases htp : tpid b with
        | some p =>
          by_cases hp : p ∈ seen
          · obtain ⟨k, hk, htr⟩ := step acc seen (ih (i + 1) acc seen)
            exact ⟨k, by simpa using hk, by simpa [extractGo, hle, htp, hp] using htr⟩
          · obtain ⟨k, hk, htr⟩ := step (acc ++ [b]) (p :: seen) (ih (i + 1) _ _)
            exact ⟨k, by simpa using hk, by simpa [extractGo, hle, htp, hp] using htr⟩
        | none =>
          obtain ⟨k, hk, htr⟩ := step (acc ++ [b]) seen (ih (i + 1) _ _)
          exact ⟨k, by simpa using hk, by simpa [extractGo, hle, htp] using htr⟩

theorem extractGo_full_trace (cards : List (Option RecordT)) :
    ∀ (i n m : Nat) (acc : List RecordT) (seen : List Val), n ≤ m →
    (extractGo cards i n acc seen).2.length = cards.length →
    (extractGo cards i n acc seen).1 = (extractGo cards i m acc seen).1 := by
  induction cards with
  | nil => intro i n m acc seen _ _; simp [extractGo]
  | cons c rest ih =>
    intro i n m acc seen hnm hfull
    by_cases hle : n ≤ acc.length
    · exfalso
      simp [extractGo, hle] at hfull
    · have hlem : ¬(m ≤ acc.length) := by omega
      cases c with
      | none =>
        simp only [extractGo, if_neg hle, if_neg hlem]
        simp only [extractGo, if_neg hle, List.length_cons] at hfull
        exact ih (i + 1) n m acc seen hnm (by simpa using hfull)
      | some b =>
        cases htp : tpid b with
        | some p =>
          by_cases hp : p ∈ seen
          · simp only [extractGo, if_neg hle, if_neg hlem, htp, if_pos hp]
            simp only [extractGo, if_neg hle, htp, if_pos hp, List.length_cons] at hfull
            exact ih (i + 1) n m acc seen hnm (by simpa using hfull)
          · simp only [extractGo, if_neg hle, if_neg hlem, htp, if_neg hp]
            simp only [extractGo, if_neg hle, htp, if_neg hp, List.length_cons] at hfull
            exact ih (i + 1) n m (acc ++ [b]) (p :: seen) hnm (by simpa using hfull)
        | none =>
          simp only [extractGo, if_neg hle, if_neg hlem, htp]
          simp only [extractGo, if_neg hle, htp, List.length_cons] at hfull
          exact ih (i + 1) n m (acc ++ [b]) seen hnm (by simpa using hfull)

theorem dget_upsert {κ α : Type} [DecidableEq κ] (k k1 : κ) (v : α) (d : List (κ × α)) :
    dget k (upsert k1 v d) = if k1 = k then some v else dget k d := by
  induction d with
  | nil => simp [upsert, dget]
  | cons kv rest ih =>
    obtain ⟨k0, v0⟩ := kv
    by_cases h0 : k0 = k1
    · subst h0
      by_cases h1 : k0 = k
      · subst h1; simp [upsert, dget]
      · simp [upsert, dget, h1]
    · by_cases h1 : k0 = k
      · subst h1
        have : k1 ≠ k0 := fun h => h0 h.symm
        simp [upsert, dget, h0, this]
      · simp [upsert, dget, h0, h1, ih]

theorem dmem_iff_keys {κ α : Type} [DecidableEq κ] (k : κ) (d : List (κ × α)) :
    dmem k d = true ↔ k ∈ d.map Prod.fst := by
  induction d with
  | nil => simp [dmem]
  | cons kv rest ih =>
    obtain ⟨k0, v0⟩ := kv
    by_cases h0 : k0 = k
    · subst h0; simp [dmem]
    · simp [dmem, h0, ih, Ne.symm h0]

theorem keys_upsert_mem {κ α : Type} [DecidableEq κ] (k k1 : κ) (v : α) (d : List (κ × α)) :
    k ∈ (upsert k1 v d).map Prod.fst → k = k1 ∨ k ∈ d.map Prod.fst := by
  induction d with
  | nil => simp [upsert]
  | cons kv rest ih =>
    obtain ⟨k0, v0⟩ := kv
    by_cases h0 : k0 = k1
    · subst h0
      simp only [upsert, if_pos rfl, ite_true, eq_self_iff_true, List.map_cons, List.mem_cons]
      tauto
    · simp only [upsert, if_neg h0, List.map_cons, List.mem_cons]
      intro hx
      rcases hx with h | h
      · exact Or.inr (Or.inl h)
      · rcases ih h with h2 | h2
        · exact Or.inl h2
        · exact Or.inr (Or.inr h2)

theorem keys_upsert_nodup {κ α : Type} [DecidableEq κ] (k1 : κ) (v : α) (d : List (κ × α)) :
    (d.map Prod.fst).Nodup → ((upsert k1 v d).map Prod.fst).Nodup := by
  induction d with
  | nil => intro _; simp [upsert]
  | cons kv rest ih =>
    obtain ⟨k0, v0⟩ := kv
    intro hnd
    simp only [List.map_cons, List.nodup_cons] at hnd
    by_cases h0 : k0 = k1
    · subst h0
      simp only [upsert, if_pos rfl, ite_true, eq_self_iff_true, List.map_cons, List.nodup_cons]
      exact hnd
    · simp only [upsert, if_neg h0, List.map_cons, List.nodup_cons]
      refine ⟨?_, ih hnd.2⟩
      intro hmem
      rcases keys_upsert_mem _ _ _ _ hmem with h | h
      · exact h0 h
      · exact hnd.1 h

theorem dget_dmerge_of_not_mem {k : RKey} {b : RecordT} (a : RecordT)
    (h : k ∉ b.map Prod.fst) : dget k (dmerge a b) = dget k a := by
  induction b generalizing a with
  | nil => simp [dmerge]
  | cons kv rest ih =>
    obtain ⟨k0, v0⟩ := kv
    simp only [List.map_cons, List.mem_cons] at h
    push_neg at h
    have : dmerge a ((k0, v0) :: rest) = dmerge (upsert k0 v0 a) rest := by
      simp [dmerge]
    rw [this, ih (upsert k0 v0 a) h.2, dget_upsert]
    rw [if_neg (fun hc => h.1 hc.symm)]

theorem dget_dmerge_of_mem {k : RKey} {b : RecordT} (a : RecordT)
    (hnd : (b.map Prod.fst).Nodup) (h : k ∈ b.map Prod.fst) :
    dget k (dmerge a b) = dget k b := by
  induction b generalizing a with
  | nil => cases h
  | cons kv rest ih =>
    obtain ⟨k0, v0⟩ := kv
    simp only [List.map_cons, List.nodup_cons] at hnd
    have hstep : dmerge a ((k0, v0) :: rest) = dmerge (upsert k0 v0 a) rest := by
      simp [dmerge]
    by_cases h0 : k0 = k
    · subst h0
      rw [hstep, dget_dmerge_of_not_mem _ hnd.1, dget_upsert]
      simp [dget]
    · have hr : k ∈ rest.map Prod.fst := by
        simp only [List.map_cons, List.mem_cons] at h
        rcases h with h | h
        · exact absurd h.symm h0
        · exact h
      rw [hstep, ih (upsert k0 v0 a) hnd.2 hr]
      simp [dget, h0]

theorem dget_dmerge_all {k : RKey} {b : RecordT} (a : RecordT) (P : Val → Prop)
    (hall : ∀ v, (k, v) ∈ b → P v) (h : k ∈ b.map Prod.fst) :
    ∃ v, dget k (dmerge a b) = some v ∧ P v := by
  induction b generalizing a with
  | nil => cases h
  | cons kv rest ih =>
    obtain ⟨k0, v0⟩ := kv
    have hstep : dmerge a ((k0, v0) :: rest) = dmerge (upsert k0 v0 a) rest := by
      simp [dmerge]
    by_cases hr : k ∈ rest.map Prod.fst
    · rw [hstep]
      exact ih (upsert k0 v0 a) (fun v hv => hall v (List.mem_cons_of_mem _ hv)) hr
    · have h0 : k0 = k := by
        simp only [List.map_cons, List.mem_cons] at h
        rcases h with h | h
        · exact h.symm
        · exact absurd h hr
      subst h0
      rw [hstep, dget_dmerge_of_not_mem _ hr, dget_upsert]
      simp only [if_pos rfl]
      exact ⟨v0, rfl, hall v0 (List.mem_cons_self _ _)⟩

theorem dmerge_nil (a : RecordT) : dmerge a [] = a := by
  simp [dmerge]

/-- Index of a visit event. -/
def visitIdx : Event → Option Nat
  | Event.visit i => some i
  | _ => none

theorem deepGo_cons (b : RecordT) (rest : List RecordT) (res : Nat → DeepResult) (i : Nat) :
    (deepGo (b :: rest) res i).1 = deepStep b (res i) :: (deepGo rest res (i + 1)).1 := by
  cases hu : dget RKey.url b with
  | none => simp [deepGo, deepStep, hu]
  | some v =>
    by_cases hv : valTruthy v
    · cases hr : res i with
      | navError => simp [deepGo, deepStep, hu, hv, hr]
      | details d => simp [deepGo, deepStep, hu, hv, hr]
    · simp [deepGo, deepStep, hu, hv]

theorem deepGo_length (businesses : List RecordT) :
    ∀ (res : Nat → DeepResult) (i : Nat),
    (deepGo businesses res i).1.length = businesses.length := by
  induction businesses with
  | nil => intro res i; simp [deepGo]
  | cons b rest ih =>
    intro res i
    rw [deepGo_cons]
    simp [ih res (i + 1)]

theorem deepGo_get (businesses : List RecordT) :
    ∀ (res : Nat → DeepResult) (i j : Nat) (b : RecordT),
    businesses[j]? = some b →
    (deepGo businesses res i).1[j]? = some (deepStep b (res (i + j))) := by
  induction businesses with
  | nil => intro res i j b h; simp at h
  | cons b0 rest ih =>
    intro res i j b h
    rw [deepGo_cons]
    cases j with
    | zero =>
      simp only [List.getElem?_cons_zero, Option.some.injEq] at h
      subst h
      simp
    | succ j0 =>
      simp only [List.getElem?_cons_succ] at h ⊢
      have hgot := ih res (i + 1) j0 b h
      rw [show i + (j0 + 1) = i + 1 + j0 from by omega]
      exact hgot

theorem deepStep_navError (b : RecordT) : deepStep b DeepResult.navError = b := by
  cases hu : dget RKey.url b with
  | none => simp [deepStep, hu]
  | some v =>
    by_cases hv : valTruthy v
    · simp [deepStep, hu, hv]
    · simp [deepStep, hu, hv]

theorem deepStep_emptyDetails (b : RecordT) : deepStep b (DeepResult.details []) = b := by
  cases hu : dget RKey.url b with
  | none => simp [deepStep, hu]
  | some v =>
    by_cases hv : valTruthy v
    · simp [deepStep, hu, hv, dmerge_nil]
    · simp [deepStep, hu, hv]

theorem deepGo_trace (businesses : List RecordT) :
    ∀ (res : Nat → DeepResult) (i : Nat),
    (∀ e ∈ (deepGo businesses res i).2, ∃ j, e = Event.visit j) ∧
    List.Chain' (fun a b => a < b) ((deepGo businesses res i).2.filterMap visitIdx) ∧
    (∀ x ∈ (deepGo businesses res i).2.filterMap visitIdx, i ≤ x) := by
  induction businesses with
  | nil => intro res i; simp [deepGo]
  | cons b rest ih =>
    intro res i
    obtain ⟨ihv, ihc, ihb⟩ := ih res (i + 1)
    have hkeep : ∀ (t : List Event), t = (deepGo rest res (i + 1)).2 →
        (∀ e ∈ Event.visit i :: t, ∃ j, e = Event.visit j) ∧
        List.Chain' (fun a b => a < b) ((Event.visit i :: t).filterMap visitIdx) ∧
        (∀ x ∈ (Event.visit i :: t).filterMap visitIdx, i ≤ x) := by
      rintro t rfl
      refine ⟨?_, ?_, ?_⟩
      · intro e he
        rcases List.mem_cons.1 he with h | h
        · exact ⟨i, h⟩
        · exact ihv e h
      · simp only [List.filterMap_cons, visitIdx]
        cases htail : (deepGo rest res (i + 1)).2.filterMap visitIdx with
        | nil => simp
        | cons x xs =>
          refine List.Chain'.cons ?_ (htail ▸ ihc)
          have : i + 1 ≤ x := ihb x (by rw [htail]; exact List.mem_cons_self _ _)
          omega
      · intro x hx
        simp only [List.filterMap_cons, visitIdx] at hx
        rcases List.mem_cons.1 hx with h | h
        · omega
        · have := ihb x h
          omega
    cases hu : dget RKey.url b with
    | none =>
      simp only [deepGo, hu]
      exact ⟨ihv, ihc, fun x hx => by have := ihb x hx; omega⟩
    | some v =>
      by_cases hv : valTruthy v
      · cases hr : res i with
        | navError =>
          have h2 : (deepGo (b :: rest) res i).2 = Event.visit i :: (deepGo rest res (i + 1)).2 := by
            simp [deepGo, hu, hv, hr]
          rw [h2]
          exact hkeep _ rfl
        | details d =>
          have h2 : (deepGo (b :: rest) res i).2 = Event.visit i :: (deepGo rest res (i + 1)).2 := by
            simp [deepGo, hu, hv, hr]
          rw [h2]
          exact hkeep _ rfl
      · have h2 : (deepGo (b :: rest) res i).2 = (deepGo rest res (i + 1)).2 := by
          simp [deepGo, hu, hv]
        rw [h2]
        exact ⟨ihv, ihc, fun x hx => by have := ihb x hx; omega⟩

theorem dget_cardRatingStep (c : Card) (d : RecordT) (k : RKey) (h : k ≠ RKey.rating) :
    dget k (cardRatingStep c d) = dget k d := by
  unfold cardRatingStep
  cases c.ratingAria with
  | none => rfl
  | some a =>
    cases a with
    | none => rfl
    | some s =>
      by_cases hs : s ≠ []
      · simp only [if_pos hs, dget_upsert]
        rw [if_neg (fun hc => h hc.symm)]
      · simp only [if_neg hs]

theorem dget_cardReviewsStep (c : Card) (d : RecordT) (k : RKey) (h : k ≠ RKey.reviewsCount) :
    dget k (cardReviewsStep c d) = dget k d := by
  unfold cardReviewsStep
  by_cases hc : (decide ((String.toList "review") <:+: (c.cardText.map Char.toLower)) : Bool)
  · simp only [if_pos hc, dget_upsert]
    rw [if_neg (fun hcc => h hcc.symm)]
  · simp only [if_neg hc]

theorem dget_cardCatPart (d : RecordT) (line : List Char) (k : RKey)
    (h1 : k ≠ RKey.category) :
    dget k (cardCatPart d line) = dget k d := by
  unfold cardCatPart
  by_cases hcond : (!dmem RKey.category d && line.contains '·' : Bool)
  · rw [if_pos hcond]
    cases pySplitCh '·' line with
    | nil => rfl
    | cons p0 ps =>
      cases hps : pyStrip p0 with
      | nil => simp [hps]
      | cons c0 cs =>
        simp only [hps]
        by_cases hd : (!c0.isDigit : Bool)
        · simp only [if_pos hd, dget_upsert]
          rw [if_neg (fun hc => h1 hc.symm)]
        · simp only [if_neg hd]
  · rw [if_neg hcond]

theorem dget_cardPricePart (d1 : RecordT) (line : List Char) (k : RKey)
    (h2 : k ≠ RKey.priceLevel) :
    dget k (cardPricePart d1 line) = dget k d1 := by
  unfold cardPricePart
  by_cases hcond : (line.contains '$' && !dmem RKey.priceLevel d1 : Bool)
  · rw [if_pos hcond]
    cases hfind : (pySplitCh '·' line).find? (fun part => part.contains '$') with
    | none => rfl
    | some part =>
      by_cases hpp : pyStrip part ≠ []
      · simp only [if_pos hpp, dget_upsert]
        rw [if_neg (fun hc => h2 hc.symm)]
      · simp only [if_neg hpp]
  · rw [if_neg hcond]

theorem dget_cardLineStep (d : RecordT) (line : List Char) (k : RKey)
    (h1 : k ≠ RKey.category) (h2 : k ≠ RKey.priceLevel) :
    dget k (cardLineStep d line) = dget k d := by
  unfold cardLineStep
  by_cases hl : pyStrip line = []
  · simp only [if_pos hl]
  · simp only [if_neg hl]
    rw [dget_cardPricePart _ _ _ h2, dget_cardCatPart _ _ _ h1]

theorem dget_cardCatPriceStep (c : Card) (d : RecordT) (k : RKey)
    (h1 : k ≠ RKey.category) (h2 : k ≠ RKey.priceLevel) :
    dget k (cardCatPriceStep c d) = dget k d := by
  unfold cardCatPriceStep
  generalize (pySplitCh '\n' c.cardText).tail = lines
  induction lines generalizing d with
  | nil => rfl
  | cons l ls ih =>
    simp only [List.foldl_cons]
    rw [ih (cardLineStep d l), dget_cardLineStep d l k h1 h2]

theorem dget_cardUrlStep (c : Card) (d : RecordT) (k : RKey)
    (h1 : k ≠ RKey.url) (h2 : k ≠ RKey.placeId) (h3 : k ≠ RKey.coordinates) :
    dget k (cardUrlStep c d) = dget k d := by
  unfold cardUrlStep
  cases c.href with
  | none => rfl
  | some href =>
    by_cases hh : href = []
    · simp only [if_pos hh]
    · simp only [if_neg hh]
      cases extract_coordinates_from_url (if ([ '/' ] : List Char).isPrefixOf href
          then String.toList "https://www.google.com" ++ href else href) with
      | some p =>
        simp only [dget_upsert]
        rw [if_neg (fun hc => h3 hc.symm), if_neg (fun hc => h2 hc.symm),
          if_neg (fun hc => h1 hc.symm)]
      | none =>
        simp only [dget_upsert]
        rw [if_neg (fun hc => h2 hc.symm), if_neg (fun hc => h1 hc.symm)]

theorem firstNameHit_ne_nil (sels : List (Option (List Char))) (t : List Char) :
    firstNameHit sels = some t → t ≠ [] := by
  induction sels with
  | nil => intro h; cases h
  | cons s rest ih =>
    cases s with
    | none =>
      intro h
      exact ih (by simpa [firstNameHit] using h)
    | some t0 =>
      by_cases hc : (t0 ≠ [] && pyStrip t0 ≠ [] : Bool)
      · intro h
        simp only [firstNameHit, if_pos hc, Option.some.injEq] at h
        subst h
        simp only [Bool.and_eq_true, decide_eq_true_eq] at hc
        exact hc.2
      · intro h
        simp only [firstNameHit, if_neg hc] at h
        exact ih h

theorem cardTitle_ne_nil (c : Card) (t : List Char) : cardTitle c = some t → t ≠ [] := by
  unfold cardTitle
  cases hf : firstNameHit c.nameSel with
  | some t0 =>
    intro h
    have : t0 = t := by simpa using h
    subst this
    exact firstNameHit_ne_nil _ _ hf
  | none =>
    cases pySplitCh '\n' c.cardText with
    | nil => intro h; cases h
    | cons l0 ls =>
      cases hp : pyStrip l0 with
      | nil => intro h; simp only [hp] at h; cases h
      | cons p0 ps =>
        intro h
        simp only [hp] at h
        by_cases hc : (!p0.isDigit && !(p0 :: ps).contains '★' : Bool)
        · rw [if_pos hc] at h
          have : p0 :: ps = t := by simpa using h
          subst this
          simp
        · rw [if_neg hc] at h
          cases h

/-- A record that carries a non-empty title. -/
def titled (r : RecordT) : Prop :=
  ∃ t, dget RKey.title r = some (Val.vStr t) ∧ t ≠ []

theorem parse_business_card_titled (c : Card) (r : RecordT) :
    parse_business_card c = some r → titled r := by
  unfold parse_business_card
  by_cases hl : (!c.hasLink : Bool)
  · intro h; rw [if_pos hl] at h; cases h
  · rw [if_neg hl]
    cases ht : cardTitle c with
    | none => intro h; cases h
    | some t =>
      intro h
      simp only [Option.some.injEq] at h
      subst h
      refine ⟨t, ?_, cardTitle_ne_nil c t ht⟩
      rw [dget_cardUrlStep _ _ _ (by decide) (by decide) (by decide),
        dget_cardCatPriceStep _ _ _ (by decide) (by decide),
        dget_cardReviewsStep _ _ _ (by decide),
        dget_cardRatingStep _ _ _ (by decide)]
      simp [dget]

theorem dget_detTitleStep (pg : DetailPage) (d : RecordT) (k : RKey) (h : k ≠ RKey.title) :
    dget k (detTitleStep pg d) = dget k d := by
  unfold detTitleStep
  cases pg.h1Text with
  | none => rfl
  | some t => rw [dget_upsert, if_neg (fun hc => h hc.symm)]

theorem dget_detRatingStep (pg : DetailPage) (d : RecordT) (k : RKey) (h : k ≠ RKey.rating) :
    dget k (detRatingStep pg d) = dget k d := by
  unfold detRatingStep
  cases pg.ratingAria with
  | none => rfl
  | some a => rw [dget_upsert, if_neg (fun hc => h hc.symm)]

theorem dget_detReviewsStep (pg : DetailPage) (d : RecordT) (k : RKey)
    (h : k ≠ RKey.reviewsCount) :
    dget k (detReviewsStep pg d) = dget k d := by
  unfold detReviewsStep
  cases pg.reviewsText with
  | none => rfl
  | some t => rw [dget_upsert, if_neg (fun hc => h hc.symm)]

theorem dget_detAddressStep (pg : DetailPage) (d : RecordT) (k : RKey)
    (h : k ≠ RKey.address) :
    dget k (detAddressStep pg d) = dget k d := by
  unfold detAddressStep
  cases pg.addressText with
  | none => rfl
  | some t => rw [dget_upsert, if_neg (fun hc => h hc.symm)]

theorem dget_detPhoneStep (pg : DetailPage) (d : RecordT) (k : RKey) (h : k ≠ RKey.phone) :
    dget k (detPhoneStep pg d) = dget k d := by
  unfold detPhoneStep
  cases pg.phoneText with
  | none => rfl
  | some t => rw [dget_upsert, if_neg (fun hc => h hc.symm)]

theorem dget_detWebsiteStep (pg : DetailPage) (d : RecordT) (k : RKey)
    (h : k ≠ RKey.website) :
    dget k (detWebsiteStep pg d) = dget k d := by
  unfold detWebsiteStep
  cases pg.websiteHref with
  | none => rfl
  | some t => rw [dget_upsert, if_neg (fun hc => h hc.symm)]

theorem dget_detCategoryStep (pg : DetailPage) (d : RecordT) (k : RKey)
    (h : k ≠ RKey.category) :
    dget k (detCategoryStep pg d) = dget k d := by
  unfold detCategoryStep
  cases pg.categoryText with
  | none => rfl
  | some t => rw [dget_upsert, if_neg (fun hc => h hc.symm)]

theorem dget_detHoursStep (pg : DetailPage) (d : RecordT) (k : RKey) (h : k ≠ RKey.hours) :
    dget k (detHoursStep pg d) = dget k d := by
  unfold detHoursStep
  by_cases hb : pg.hoursButton
  · rw [if_pos hb]
    cases pg.hoursText with
    | none => rfl
    | some t => rw [dget_upsert, if_neg (fun hc => h hc.symm)]
  · rw [if_neg hb]

theorem dget_detPlusCodeStep (pg : DetailPage) (d : RecordT) (k : RKey)
    (h : k ≠ RKey.plusCode) :
    dget k (detPlusCodeStep pg d) = dget k d := by
  unfold detPlusCodeStep
  cases pg.plusCodeText with
  | none => rfl
  | some t => rw [dget_upsert, if_neg (fun hc => h hc.symm)]

theorem dget_detUrlStep (pg : DetailPage) (d : RecordT) (k : RKey)
    (h1 : k ≠ RKey.url) (h2 : k ≠ RKey.placeId) (h3 : k ≠ RKey.coordinates) :
    dget k (detUrlStep pg d) = dget k d := by
  unfold detUrlStep
  cases extract_coordinates_from_url pg.currentUrl with
  | some p =>
    simp only [dget_upsert]
    rw [if_neg (fun hc => h3 hc.symm), if_neg (fun hc => h2 hc.symm),
      if_neg (fun hc => h1 hc.symm)]
  | none =>
    simp only [dget_upsert]
    rw [if_neg (fun hc => h2 hc.symm), if_neg (fun hc => h1 hc.symm)]

theorem dget_detReviewsListStep (ds : Bool) (d : RecordT) (k : RKey)
    (h : k ≠ RKey.reviews) :
    dget k (detReviewsListStep ds d) = dget k d := by
  unfold detReviewsListStep
  by_cases hd : ds
  · rw [if_pos hd, dget_upsert, if_neg (fun hc => h hc.symm)]
  · rw [if_neg hd]

theorem detPhoneStep_value (pg : DetailPage) (d : RecordT) (t : List Char)
    (hp : pg.phoneText = some t) (he : extract_phone t = none) :
    dget RKey.phone (detPhoneStep pg d) = some Val.vNone := by
  unfold detPhoneStep
  rw [hp]
  simp [he, dget_upsert, optVal]

theorem dget_phone_details (pg : DetailPage) (t : List Char)
    (hw : pg.h1Wait = true) (hp : pg.phoneText = some t) (he : extract_phone t = none) :
    dget RKey.phone (parse_business_details pg false) = some Val.vNone := by
  unfold parse_business_details
  rw [hw]
  simp only [Bool.not_true, Bool.false_eq_true, if_false]
  rw [dget_detReviewsListStep _ _ _ (by decide),
    dget_detUrlStep _ _ _ (by decide) (by decide) (by decide),
    dget_detPlusCodeStep _ _ _ (by decide),
    dget_detHoursStep _ _ _ (by decide),
    dget_detCategoryStep _ _ _ (by decide),
    dget_detWebsiteStep _ _ _ (by decide)]
  exact detPhoneStep_value pg _ t hp he

theorem keysNodup_detTitleStep (pg : DetailPage) (d : RecordT)
    (h : (d.map Prod.fst).Nodup) : ((detTitleStep pg d).map Prod.fst).Nodup := by
  unfold detTitleStep
  cases pg.h1Text with
  | none => exact h
  | some t => exact keys_upsert_nodup _ _ _ h

theorem keysNodup_detRatingStep (pg : DetailPage) (d : RecordT)
    (h : (d.map Prod.fst).Nodup) : ((detRatingStep pg d).map Prod.fst).Nodup := by
  unfold detRatingStep
  cases pg.ratingAria with
  | none => exact h
  | some a => exact keys_upsert_nodup _ _ _ h

theorem keysNodup_detReviewsStep (pg : DetailPage) (d : RecordT)
    (h : (d.map Prod.fst).Nodup) : ((detReviewsStep pg d).map Prod.fst).Nodup := by
  unfold detReviewsStep
  cases pg.reviewsText with
  | none => exact h
  | some t => exact keys_upsert_nodup _ _ _ h

theorem keysNodup_detAddressStep (pg : DetailPage) (d : RecordT)
    (h : (d.map Prod.fst).Nodup) : ((detAddressStep pg d).map Prod.fst).Nodup := by
  unfold detAddressStep
  cases pg.addressText with
  | none => exact h
  | some t => exact keys_upsert_nodup _ _ _ h

theorem keysNodup_detPhoneStep (pg : DetailPage) (d : RecordT)
    (h : (d.map Prod.fst).Nodup) : ((detPhoneStep pg d).map Prod.fst).Nodup := by
  unfold detPhoneStep
  cases pg.phoneText with
  | none => exact h
  | some t => exact keys_upsert_nodup _ _ _ h

theorem keysNodup_detWebsiteStep (pg : DetailPage) (d : RecordT)
    (h : (d.map Prod.fst).Nodup) : ((detWebsiteStep pg d).map Prod.fst).Nodup := by
  unfold detWebsiteStep
  cases pg.websiteHref with
  | none => exact h
  | some t => exact keys_upsert_nodup _ _ _ h

theorem keysNodup_detCategoryStep (pg : DetailPage) (d : RecordT)
    (h : (d.map Prod.fst).Nodup) : ((detCategoryStep pg d).map Prod.fst).Nodup := by
  unfold detCategoryStep
  cases pg.categoryText with
  | none => exact h
  | some t => exact keys_upsert_nodup _ _ _ h

theorem keysNodup_detHoursStep (pg : DetailPage) (d : RecordT)
    (h : (d.map Prod.fst).Nodup) : ((detHoursStep pg d).map Prod.fst).Nodup := by
  unfold detHoursStep
  by_cases hb : pg.hoursButton
  · rw [if_pos hb]
    cases pg.hoursText with
    | none => exact h
    | some t => exact keys_upsert_nodup _ _ _ h
  · rw [if_neg hb]; exact h

theorem keysNodup_detPlusCodeStep (pg : DetailPage) (d : RecordT)
    (h : (d.map Prod.fst).Nodup) : ((detPlusCodeStep pg d).map Prod.fst).Nodup := by
  unfold detPlusCodeStep
  cases pg.plusCodeText with
  | none => exact h
  | some t => exact keys_upsert_nodup _ _ _ h

theorem keysNodup_detUrlStep (pg : DetailPage) (d : RecordT)
    (h : (d.map Prod.fst).Nodup) : ((detUrlStep pg d).map Prod.fst).Nodup := by
  unfold detUrlStep
  cases extract_coordinates_from_url pg.currentUrl with
  | some p => exact keys_upsert_nodup _ _ _ (keys_upsert_nodup _ _ _ (keys_upsert_nodup _ _ _ h))
  | none => exact keys_upsert_nodup _ _ _ (keys_upsert_nodup _ _ _ h)

theorem keysNodup_detReviewsListStep (ds : Bool) (d : RecordT)
    (h : (d.map Prod.fst).Nodup) : ((detReviewsListStep ds d).map Prod.fst).Nodup := by
  unfold detReviewsListStep
  by_cases hd : ds
  · rw [if_pos hd]; exact keys_upsert_nodup _ _ _ h
  · rw [if_neg hd]; exact h

theorem keysNodup_details (pg : DetailPage) (ds : Bool) :
    ((parse_business_details pg ds).map Prod.fst).Nodup := by
  unfold parse_business_details
  by_cases hw : (!pg.h1Wait : Bool)
  · rw [if_pos hw]; simp
  · rw [if_neg hw]
    exact keysNodup_detReviewsListStep _ _ (keysNodup_detUrlStep _ _
      (keysNodup_detPlusCodeStep _ _ (keysNodup_detHoursStep _ _
        (keysNodup_detCategoryStep _ _ (keysNodup_detWebsiteStep _ _
          (keysNodup_detPhoneStep _ _ (keysNodup_detAddressStep _ _
            (keysNodup_detReviewsStep _ _ (keysNodup_detRatingStep _ _
              (keysNodup_detTitleStep _ _ (by simp)))))))))))

/-- Every title pair a detail record carries is a non-empty string (vacuously
true when the detail record has no title key). -/
def detailTitleOk (d : RecordT) : Prop :=
  ∀ v, (RKey.title, v) ∈ d → ∃ t, v = Val.vStr t ∧ t ≠ []

theorem titled_dmerge (b d : RecordT) (hb : titled b) (hd : detailTitleOk d) :
    titled (dmerge b d) := by
  by_cases hmem : RKey.title ∈ d.map Prod.fst
  · obtain ⟨v, hv, t, rfl, ht⟩ := dget_dmerge_all b (fun v => ∃ t, v = Val.vStr t ∧ t ≠ []) hd hmem
    exact ⟨t, hv, ht⟩
  · obtain ⟨t, hgt, ht⟩ := hb
    exact ⟨t, (dget_dmerge_of_not_mem b hmem).symm ▸ hgt, ht⟩

theorem titled_deepStep (b : RecordT) (r : DeepResult) (hb : titled b)
    (hd : ∀ d, r = DeepResult.details d → detailTitleOk d) : titled (deepStep b r) := by
  unfold deepStep
  cases hu : dget RKey.url b with
  | none => exact hb
  | some v =>
    by_cases hv : valTruthy v
    · simp only [if_pos hv]
      cases r with
      | navError => exact hb
      | details d => exact titled_dmerge b d hb (hd d rfl)
    · simp only [if_neg hv]
      exact hb

theorem deepGo_titled (businesses : List RecordT) :
    ∀ (res : Nat → DeepResult) (i : Nat),
    (∀ b ∈ businesses, titled b) →
    (∀ j d, res j = DeepResult.details d → detailTitleOk d) →
    ∀ r ∈ (deepGo businesses res i).1, titled r := by
  induction businesses with
  | nil => intro res i _ _ r hr; simp [deepGo] at hr
  | cons b rest ih =>
    intro res i hbs hres r hr
    rw [deepGo_cons] at hr
    rcases List.mem_cons.1 hr with h | h
    · subst h
      exact titled_deepStep b (res i) (hbs b (List.mem_cons_self _ _)) (fun d hd => hres i d hd)
    · exact ih res (i + 1) (fun b2 hb2 => hbs b2 (List.mem_cons_of_mem _ hb2)) hres r h

theorem extract_titled (cards : List (Option RecordT)) (maxResults : Nat)
    (hcards : ∀ r, some r ∈ cards → titled r) :
    ∀ b ∈ extract_business_cards cards maxResults, titled b := by
  intro b hb
  rw [extract_business_cards_eq] at hb
  exact hcards b (extractPure_mem cards maxResults [] b hb)

theorem scrape_titled (env : ScrapeEnv) (maxResults : Nat) (deep_scrape : Bool)
    (hcards : ∀ r, some r ∈ env.cards → titled r)
    (hdeep : ∀ j d, env.deepRes j = DeepResult.details d → detailTitleOk d) :
    ∀ l, scrape env maxResults deep_scrape = Except.ok l → ∀ r ∈ l, titled r := by
  intro l hl r hr
  unfold scrape scrapeRun at hl
  by_cases hi : (!env.initOk : Bool)
  · rw [if_pos hi] at hl
    simp only [Except.ok.injEq] at hl
    subst hl
    cases hr
  · rw [if_neg hi] at hl
    by_cases hs : (!env.searchOk : Bool)
    · rw [if_pos hs] at hl
      simp only [Except.ok.injEq] at hl
      subst hl
      cases hr
    · rw [if_neg hs] at hl
      by_cases hd : (deep_scrape &&
          !(extract_business_cards env.cards maxResults).isEmpty : Bool)
      · rw [if_pos hd] at hl
        simp only [Except.ok.injEq] at hl
        subst hl
        exact deepGo_titled _ env.deepRes 0
          (extract_titled env.cards maxResults hcards) hdeep r hr
      · rw [if_neg hd] at hl
        simp only [Except.ok.injEq] at hl
        subst hl
        exact extract_titled env.cards maxResults hcards r hr

theorem upsert_entry_mem {κ α : Type} [DecidableEq κ] (k k1 : κ) (v v1 : α)
    (d : List (κ × α)) :
    (k, v) ∈ upsert k1 v1 d → (k = k1 ∧ v = v1) ∨ (k, v) ∈ d := by
  induction d with
  | nil =>
    intro h
    have h2 := List.mem_singleton.1 h
    rw [Prod.mk.injEq] at h2
    exact Or.inl h2
  | cons kv rest ih =>
    obtain ⟨k0, v0⟩ := kv
    intro h
    by_cases h0 : k0 = k1
    · subst h0
      have hu : upsert k0 v1 ((k0, v0) :: rest) = (k0, v1) :: rest := by
        simp [upsert]
      rw [hu] at h
      rcases List.mem_cons.1 h with h | h
      · rw [Prod.mk.injEq] at h
        exact Or.inl h
      · exact Or.inr (List.mem_cons_of_mem _ h)
    · have hu : upsert k1 v1 ((k0, v0) :: rest) = (k0, v0) :: upsert k1 v1 rest := by
        simp [upsert, h0]
      rw [hu] at h
      rcases List.mem_cons.1 h with h | h
      · exact Or.inr (List.mem_cons.2 (Or.inl h))
      · rcases ih h with h2 | h2
        · exact Or.inl h2
        · exact Or.inr (List.mem_cons.2 (Or.inr h2))

theorem hoursStep_inv (st : List (List Char × List Char) × Option (List Char))
    (rawLine : List Char)
    (h1 : ∀ kv ∈ st.1, kv.1 ∈ days ∧ kv.2 ≠ [])
    (h2 : ∀ cd, st.2 = some cd → cd ∈ days) :
    (∀ kv ∈ (hoursStep st rawLine).1, kv.1 ∈ days ∧ kv.2 ≠ []) ∧
    (∀ cd, (hoursStep st rawLine).2 = some cd → cd ∈ days) := by
  obtain ⟨dict, cur⟩ := st
  cases hf : days.find? (fun d => d.isPrefixOf (pyStrip rawLine)) with
  | some day =>
    have hday : day ∈ days := List.mem_of_find?_eq_some hf
    have he : hoursStep (dict, cur) rawLine =
        (if pyStrip (pyRemoveAll day (pyStrip rawLine)) ≠ [] then
          upsert day (pyStrip (pyRemoveAll day (pyStrip rawLine))) dict else dict, some day) := by
      simp only [hoursStep, hf]
    rw [he]
    refine ⟨?_, fun cd hcd => by
      have : day = cd := by simpa using hcd
      exact this ▸ hday⟩
    by_cases hp : pyStrip (pyRemoveAll day (pyStrip rawLine)) ≠ []
    · rw [if_pos hp]
      intro kv hkv
      obtain ⟨k, v⟩ := kv
      rcases upsert_entry_mem _ _ _ _ _ hkv with ⟨hk, hv⟩ | h
      · exact ⟨hk ▸ hday, hv ▸ hp⟩
      · exact h1 _ h
    · rw [if_neg hp]
      exact h1
  | none =>
    cases cur with
    | none =>
      have he : hoursStep (dict, none) rawLine = (dict, (none : Option (List Char))) := by
        simp [hoursStep, hf]
      rw [he]
      exact ⟨h1, h2⟩
    | some currentDay =>
      have hcd : currentDay ∈ days := h2 currentDay rfl
      by_cases hl : pyStrip rawLine ≠ []
      · have he : hoursStep (dict, some currentDay) rawLine =
            (upsert currentDay (pyStrip rawLine) dict, some currentDay) := by
          simp [hoursStep, hf, hl]
        rw [he]
        refine ⟨?_, fun cd hcd2 => by
          have hcc : currentDay = cd := by simpa using hcd2
          exact hcc ▸ hcd⟩
        intro kv hkv
        obtain ⟨k, v⟩ := kv
        rcases upsert_entry_mem _ _ _ _ _ hkv with ⟨hk, hv⟩ | h
        · exact ⟨hk ▸ hcd, hv ▸ hl⟩
        · exact h1 _ h
      · have he : hoursStep (dict, some currentDay) rawLine = (dict, some currentDay) := by
          have hl2 : pyStrip rawLine = [] := by
            by_contra hc
            exact hl hc
          simp only [hoursStep, hf]
          simp [hl2]
        rw [he]
        exact ⟨h1, h2⟩

theorem hoursFold_inv (lines : List (List Char)) :
    ∀ (st : List (List Char × List Char) × Option (List Char)),
    (∀ kv ∈ st.1, kv.1 ∈ days ∧ kv.2 ≠ []) →
    (∀ cd, st.2 = some cd → cd ∈ days) →
    ∀ kv ∈ (lines.foldl hoursStep st).1, kv.1 ∈ days ∧ kv.2 ≠ [] := by
  induction lines with
  | nil => intro st h1 _ kv hkv; exact h1 kv hkv
  | cons l ls ih =>
    intro st h1 h2 kv hkv
    simp only [List.foldl_cons] at hkv
    obtain ⟨g1, g2⟩ := hoursStep_inv st l h1 h2
    exact ih (hoursStep st l) g1 g2 kv hkv

theorem parse_hours_entries (hours_text : List Char) :
    ∀ kv ∈ parse_hours hours_text, kv.1 ∈ days ∧ kv.2 ≠ [] := by
  unfold parse_hours
  by_cases h : hours_text = []
  · simp [h]
  · rw [if_neg h]
    exact hoursFold_inv _ ([], none) (by simp) (by simp)

theorem parse_hours_noday (hours_text : List Char)
    (h : ∀ l ∈ pySplitCh '\n' hours_text,
      days.find? (fun d => d.isPrefixOf (pyStrip l)) = none) :
    parse_hours hours_text = [] := by
  unfold parse_hours
  by_cases ht : hours_text = []
  · simp [ht]
  · rw [if_neg ht]
    have : ∀ (lines : List (List Char)),
        (∀ l ∈ lines, days.find? (fun d => d.isPrefixOf (pyStrip l)) = none) →
        lines.foldl hoursStep ([], none) = ([], none) := by
      intro lines
      induction lines with
      | nil => intro _; rfl
      | cons l ls ih =>
        intro hall
        have hstep : hoursStep ([], none) l = ([], none) := by
          simp only [hoursStep, hall l (List.mem_cons_self _ _)]
        simp only [List.foldl_cons, hstep]
        exact ih (fun l2 hl2 => hall l2 (List.mem_cons_of_mem _ hl2))
    rw [this _ h]

theorem extractTrace_shape (cards : List (Option RecordT)) (maxResults : Nat) :
    ∃ k, k ≤ cards.length ∧
      extractTrace cards maxResults = (List.range k).map Event.parse := by
  obtain ⟨k, hk, htr⟩ := extractGo_trace cards maxResults 0 [] []
  refine ⟨k, hk, ?_⟩
  rw [extractTrace, htr]
  apply List.map_congr_left
  intro j _
  simp

theorem extractTrace_all_parse (cards : List (Option RecordT)) (maxResults : Nat) :
    ∀ e ∈ extractTrace cards maxResults, ∃ i, e = Event.parse i := by
  intro e he
  obtain ⟨k, _, htr⟩ := extractTrace_shape cards maxResults
  rw [htr] at he
  rcases List.mem_map.1 he with ⟨j, _, hj⟩
  exact ⟨j, hj.symm⟩

/-- A record whose parse outcome carries only a title, used in concrete runs. -/
def recA : RecordT := [(RKey.title, Val.vStr [ 'A' ])]

/-- Claim C1 is false on the code: in this concrete extraction run the card at
index 0 is parsed, yet the trace holds no rate-limiter acquisition at all — no
acquisition precedes the Card Parser.  The source dropped the rate limiter
(`Removed rate limiter for faster scraping`, `No rate limiting for speed`). -/
theorem C1_counterexample :
    Event.parse 0 ∈ extractTrace [some recA] 1 ∧
    ∀ e ∈ extractTrace [some recA] 1, e ≠ Event.acquire := by
  decide

/-- Claim C1, amended: during the Extract phase no rate-limiter acquisition
happens at all; the materialized cards are handed to the Card Parser directly,
in document order (the trace is exactly the parse events of an initial segment
of the cards). -/
theorem C1_no_rate_limiting (cards : List (Option RecordT)) (maxResults : Nat) :
    Event.acquire ∉ extractTrace cards maxResults ∧
    ∃ k, k ≤ cards.length ∧
      extractTrace cards maxResults = (List.range k).map Event.parse := by
  obtain ⟨k, hk, htr⟩ := extractTrace_shape cards maxResults
  refine ⟨?_, k, hk, htr⟩
  intro hmem
  rcases extractTrace_all_parse cards maxResults Event.acquire hmem with ⟨i, hi⟩
  cases hi

/-- A scrape environment whose session initialization fails. -/
def envInitFail : ScrapeEnv :=
  { initOk := false, searchOk := true, cards := [some recA],
    deepRes := fun _ => DeepResult.navError }

/-- Claim C2 is false on the code: when the session/page cannot be created,
`scrape` does not propagate a fatal error — the surrounding
`except Exception: return []` catches the initialization failure and the
caller receives the empty list. -/
theorem C2_counterexample :
    scrape envInitFail 5 false = Except.ok [] ∧
    ∀ e, scrape envInitFail 5 false ≠ Except.error e := by
  refine ⟨rfl, ?_⟩
  intro e h
  rw [show scrape envInitFail 5 false = Except.ok [] from rfl] at h
  cases h

/-- Claim C2, amended: the scrape entry point never propagates an exception to
the caller; every failure class, session-level initialization failure
included, yields a (possibly empty) result list. -/
theorem C2_never_fatal (env : ScrapeEnv) (max_results : Nat) (deep_scrape : Bool) :
    ∃ l, scrape env max_results deep_scrape = Except.ok l := by
  unfold scrape
  cases (scrapeRun env max_results deep_scrape).1 with
  | ok l => exact ⟨l, rfl⟩
  | error e => exact ⟨[], rfl⟩

/-- Claim C3 is false on the code: on `12345+++++` the code returns the string
itself — it keeps every `'+'` (not only a single leading one) and counts the
pluses toward the 10-character minimum — although only 5 digits remain, where
the claim demands an absent result. -/
theorem C3_counterexample :
    extract_phone (String.toList "12345+++++") = some (String.toList "12345+++++") ∧
    ((String.toList "12345+++++").filter Char.isDigit).length = 5 ∧
    extract_phone (String.toList "12345+++++") ≠ none := by
  decide

/-- Claim C3, amended: for every input, extractPhone returns the subsequence
of characters that are digits or `'+'` (every `'+'` kept, wherever it occurs),
and returns absent exactly when that kept subsequence — pluses counted along
with digits — is shorter than 10 characters; in particular
extractPhone("(212) 555-0100") = "2125550100" and extractPhone("12345") is
absent. -/
theorem C3_digit_plus_projection :
    (∀ s : List Char,
      (extract_phone s = none ↔ (s.filter (fun c => c.isDigit || c = '+')).length < 10) ∧
      (∀ y, extract_phone s = some y → y = s.filter (fun c => c.isDigit || c = '+'))) ∧
    extract_phone (String.toList "(212) 555-0100") = some (String.toList "2125550100") ∧
    extract_phone (String.toList "12345") = none := by
  refine ⟨?_, by decide, by decide⟩
  intro s
  unfold extract_phone
  by_cases hs : s = []
  · subst hs
    simp
  · rw [if_neg hs]
    by_cases hlen : (s.filter (fun c => c.isDigit || c = '+')).length < 10
    · simp [hlen]
    · simp [hlen]

/-- Witness for C3: the amended theorem applied at the concrete input
`(212) 555-0100`. -/
theorem C3_witness :
    String.toList "2125550100" =
      (String.toList "(212) 555-0100").filter (fun c => c.isDigit || c = '+') :=
  (C3_digit_plus_projection.1 (String.toList "(212) 555-0100")).2
    (String.toList "2125550100") (by decide)

/-- Claim C4: among admitted records the truthy derived place id is unique —
the place ids present in the output carry no duplicate; a record with place id
`p` in the output is the one the earliest card deriving `p` parsed to (the
first parsed record with that id in document order); and when the limit does
not cut the run short, every parsed record without a truthy place id is kept
(records without a derivable place id are never deduplicated against each
other). -/
theorem C4_placeid_unique (cards : List (Option RecordT)) (maxResults : Nat) :
    ((extract_business_cards cards maxResults).filterMap tpid).Nodup ∧
    (∀ b p, b ∈ extract_business_cards cards maxResults → tpid b = some p →
      (cards.filterMap id).find? (fun x => decide (tpid x = some p)) = some b) ∧
    ((cards.filterMap id).length ≤ maxResults →
      (extract_business_cards cards maxResults).filter (fun b => (tpid b).isNone) =
        (cards.filterMap id).filter (fun b => (tpid b).isNone)) := by
  refine ⟨?_, ?_, ?_⟩
  · rw [extract_business_cards_eq]
    exact (extractPure_nodup cards maxResults []).1
  · intro b p hb hp
    rw [extract_business_cards_eq] at hb
    exact (extractPure_first cards maxResults [] b p hb hp).2
  · intro hlen
    rw [extract_business_cards_eq]
    exact extractPure_nonePid cards maxResults [] hlen

/-- The shared truthy place id of the duplicate fixtures. -/
def pidX : Val := Val.vStr [ 'x' ]

/-- Fixture records: two cards deriving the same place id and one without. -/
def recP1 : RecordT := [(RKey.title, Val.vStr [ 'a' ]), (RKey.placeId, pidX)]

/-- Second record sharing the place id of `recP1`. -/
def recP2 : RecordT := [(RKey.title, Val.vStr [ 'b' ]), (RKey.placeId, pidX)]

/-- Record with no derivable place id. -/
def recN : RecordT := [(RKey.title, Val.vStr [ 'c' ])]

/-- Fixture card list for the C4 witness: a duplicate pair around an
unparseable card plus a record without a place id. -/
def cardsW : List (Option RecordT) := [some recP1, none, some recP2, some recN]

/-- Witness for C4: on the fixture list the record admitted for the shared
place id is the one from the earlier card, and the id-less record is kept. -/
theorem C4_witness :
    (cardsW.filterMap id).find? (fun x => decide (tpid x = some pidX)) = some recP1 ∧
    (extract_business_cards cardsW 5).filter (fun b => (tpid b).isNone) =
      (cardsW.filterMap id).filter (fun b => (tpid b).isNone) := by
  exact ⟨(C4_placeid_unique cardsW 5).2.1 recP1 pidX (by decide) (by decide),
    (C4_placeid_unique cardsW 5).2.2 (by decide)⟩

/-- Third record sharing the place id of `recP1`. -/
def recP3 : RecordT := [(RKey.title, Val.vStr [ 'd' ]), (RKey.placeId, pidX)]

/-- Duplicate-heavy fixture for the C5 counterexample: three parseable cards
sharing one place id. -/
def cardsDup : List (Option RecordT) := [some recP1, some recP2, some recP3]

/-- Claim C5 is false on the code: with limit 2 and 3 parseable cards
available, extraction admits only 1 record, not exactly 2 — deduplication
drops the later duplicates before they can count toward the limit. -/
theorem C5_counterexample :
    (cardsDup.filterMap id).length = 3 ∧ 2 < 3 ∧
    (extract_business_cards cardsDup 2).length = 1 ∧
    (extract_business_cards cardsDup 2).length ≠ 2 := by
  decide

/-- Claim C5, amended: given a limit N and a larger limit M under which more
than N records are admitted (that is, more than N parseable cards survive
deduplication), extraction with limit N returns exactly the first N admitted
records — the length-N prefix of the M-limited output, so document order is
preserved — and stops early: the cards it parses are an initial segment of
the document order that excludes at least one materialized card. -/
theorem C5_limit_prefix (cards : List (Option RecordT)) (N M : Nat) (hNM : N ≤ M)
    (hmore : N < (extract_business_cards cards M).length) :
    extract_business_cards cards N = (extract_business_cards cards M).take N ∧
    (extract_business_cards cards N).length = N ∧
    ∃ k, k < cards.length ∧ extractTrace cards N = (List.range k).map Event.parse := by
  have htake : extract_business_cards cards N = (extract_business_cards cards M).take N := by
    rw [extract_business_cards_eq, extract_business_cards_eq]
    exact extractPure_take cards N M [] hNM
  have hlen : (extract_business_cards cards N).length = N := by
    rw [htake, List.length_take]
    exact Nat.min_eq_left (Nat.le_of_lt hmore)
  refine ⟨htake, hlen, ?_⟩
  obtain ⟨k, hk, htr⟩ := extractTrace_shape cards N
  rcases Nat.lt_or_ge k cards.length with hlt | hge
  · exact ⟨k, hlt, htr⟩
  · exfalso
    have hkeq : k = cards.length := Nat.le_antisymm hk hge
    have hfull : (extractGo cards 0 N [] []).2.length = cards.length := by
      have h1 : (extractGo cards 0 N [] []).2 = extractTrace cards N := rfl
      rw [h1, htr]
      simp [hkeq]
    have heq : extract_business_cards cards N = extract_business_cards cards M :=
      extractGo_full_trace cards 0 N M [] [] hNM hfull
    have hle : (extract_business_cards cards N).length ≤ N := by
      rw [extract_business_cards_eq]
      exact extractPure_length_le cards N []
    rw [heq] at hle
    omega

/-- Fixture record with a distinct place id per character. -/
def recQ (c : Char) : RecordT := [(RKey.title, Val.vStr [ 'q' ]), (RKey.placeId, Val.vStr [ c ])]

/-- Three distinct parseable cards for the C5 witness. -/
def cardsTri : List (Option RecordT) := [some (recQ 'x'), some (recQ 'y'), some (recQ 'z')]

/-- Witness for C5: the amended theorem applied at three distinct cards with
limit 1 against limit 3. -/
theorem C5_witness :
    extract_business_cards cardsTri 1 = (extract_business_cards cardsTri 3).take 1 ∧
    (extract_business_cards cardsTri 1).length = 1 ∧
    ∃ k, k < cardsTri.length ∧ extractTrace cardsTri 1 = (List.range k).map Event.parse :=
  C5_limit_prefix cardsTri 1 3 (by decide) (by decide)

/-- One line of hours parsing as claim C6 words it: a line beginning with a
day name sets that day's entry to the trimmed remainder of the line after the
day name, possibly empty; otherwise the continuation and ignore rules apply as
in the source. -/
def claimedHoursStep (st : List (List Char × List Char) × Option (List Char))
    (rawLine : List Char) : List (List Char × List Char) × Option (List Char) :=
  let line := pyStrip rawLine
  match days.find? (fun d => d.isPrefixOf line) with
  | some day => (upsert day (pyStrip (line.drop day.length)) st.1, some day)
  | none =>
    match st.2 with
    | some currentDay =>
      if line ≠ [] then (upsert currentDay line st.1, some currentDay) else st
    | none => st

/-- Hours parsing as claim C6 words it, for comparison with the source. -/
def parseHoursClaimed (hours_text : List Char) : List (List Char × List Char) :=
  if hours_text = [] then []
  else ((pySplitCh '\n' hours_text).foldl claimedHoursStep ([], none)).1

/-- Claim C6 is false on the code: on the single line `Monday Monday` the
claim's reading stores `Monday ↦ Monday` (the trimmed remainder after the day
name), but the source removes every occurrence of the day name from the line
and stores nothing when the remainder strips to empty, so it returns the empty
mapping. -/
theorem C6_counterexample :
    parseHoursClaimed (String.toList "Monday Monday") =
      [(String.toList "Monday", String.toList "Monday")] ∧
    parse_hours (String.toList "Monday Monday") = [] ∧
    parse_hours (String.toList "Monday Monday") ≠
      parseHoursClaimed (String.toList "Monday Monday") := by
  decide

/-- Claim C6, amended: a line beginning with a day name makes that day
current and stores, as the day's entry, the line with every occurrence of the
day name removed and trimmed — but only when that remainder is non-empty; an
empty remainder leaves the entry unset.  A later non-blank non-day line
overwrites (not appends to) the current day's value, and lines before the
first day header are ignored (a text with no day-header line parses to the
empty mapping).  Every stored key is one of the seven weekdays and every
stored value is non-empty.  In particular
parseHours("Monday\n9AM-5PM\nTuesday\nClosed") =
Monday ↦ 9AM-5PM, Tuesday ↦ Closed. -/
theorem C6_hours_state_machine :
    parse_hours (String.toList "Monday\n9AM-5PM\nTuesday\nClosed") =
      [(String.toList "Monday", String.toList "9AM-5PM"),
       (String.toList "Tuesday", String.toList "Closed")] ∧
    parse_hours (String.toList "Monday") = [] ∧
    parse_hours (String.toList "Monday\nA\nB") =
      [(String.toList "Monday", String.toList "B")] ∧
    (∀ t kv, kv ∈ parse_hours t → kv.1 ∈ days ∧ kv.2 ≠ []) ∧
    (∀ t, (∀ l ∈ pySplitCh '\n' t,
        days.find? (fun d => d.isPrefixOf (pyStrip l)) = none) →
      parse_hours t = []) := by
  refine ⟨by decide, by decide, by decide, ?_, ?_⟩
  · intro t kv hkv
    exact parse_hours_entries t kv hkv
  · intro t h
    exact parse_hours_noday t h

/-- Witness for C6: the amended theorem's no-day-header clause applied at a
concrete text. -/
theorem C6_witness : parse_hours (String.toList "no days here\n9AM-5PM") = [] :=
  C6_hours_state_machine.2.2.2.2 (String.toList "no days here\n9AM-5PM") (by decide)

/-- Rate limiter fixture of the C7 failing schedule: one permit per 10 time
units. -/
def rlDemo : RateLimiter := { max_requests := 1, time_window := 10, requests := [] }

/-- First acquire, at time 0. -/
def rlStep1 : ℚ × RateLimiter := wait_if_needed rlDemo 0

/-- Second acquire, at time 1 (after the first returned at time 0). -/
def rlStep2 : ℚ × RateLimiter := wait_if_needed rlStep1.2 1

/-- Third acquire, at time 10 (the instant the second returned). -/
def rlStep3 : ℚ × RateLimiter := wait_if_needed rlStep2.2 10

/-- Claim C7 fails on the code (code bug): under the schedule of acquisitions
at times 0, 1 and 10 with one permit per 10-unit window, the sleeps computed
are 0, 9 and 1, so the acquisitions complete at times 0, 10 and 11 — the last
two only 1 unit apart, two grants inside one trailing window of length 10
against a limit of 1.  The cause is that the recorded timestamp is the
pre-sleep call time instead of the post-sleep grant time.  The schedule is
sequential: each call starts no earlier than the previous grant. -/
theorem C7_window_violation :
    rlStep1.1 = 0 ∧ rlStep2.1 = 9 ∧ rlStep3.1 = 1 ∧
    ((0 : ℚ) + rlStep1.1 ≤ 1) ∧ ((1 : ℚ) + rlStep2.1 ≤ 10) ∧
    ((10 + rlStep3.1) - (1 + rlStep2.1) < rlDemo.time_window) ∧
    rlDemo.max_requests = 1 := by
  have h1 : rlStep1 = (0, { max_requests := 1, time_window := 10, requests := [0] }) := by
    show wait_if_needed rlDemo 0 = _
    unfold wait_if_needed rlDemo
    norm_num
  have h2 : rlStep2 = (9, { max_requests := 1, time_window := 10, requests := [0, 1] }) := by
    show wait_if_needed rlStep1.2 1 = _
    rw [h1]
    unfold wait_if_needed
    norm_num
  have h3 : rlStep3 = (1, { max_requests := 1, time_window := 10, requests := [1, 10] }) := by
    show wait_if_needed rlStep2.2 10 = _
    rw [h2]
    unfold wait_if_needed
    norm_num
  rw [h1, h2, h3]
  norm_num [rlDemo]

/-- Claim C8: deep-scrape failures are isolated.  The output has one record
per admitted record; the record at each position is the deep-scrape step of
the input record at the same position (so order is preserved and every record
is processed regardless of other records' outcomes); a navigation error — and
likewise a detail-page timeout, whose detail record is empty — leaves the
record in its pre-deep-scrape partial form; and in a deep scrape run the
trace is the extraction parses followed by the visits, the visits in strictly
increasing admitted order — visits happen strictly after extraction
completes. -/
theorem C8_deep_failures_isolated :
    (∀ (businesses : List RecordT) (res : Nat → DeepResult),
      (deep_scrape_businesses businesses res).length = businesses.length) ∧
    (∀ (businesses : List RecordT) (res : Nat → DeepResult) (j : Nat) (b : RecordT),
      businesses[j]? = some b →
      (deep_scrape_businesses businesses res)[j]? = some (deepStep b (res j))) ∧
    (∀ b, deepStep b DeepResult.navError = b) ∧
    (∀ b, deepStep b (DeepResult.details []) = b) ∧
    (∀ (env : ScrapeEnv) (max_results : Nat),
      ∃ t1 t2, scrapeTrace env max_results true = t1 ++ t2 ∧
        (∀ e ∈ t1, ∃ i, e = Event.parse i) ∧
        (∀ e ∈ t2, ∃ i, e = Event.visit i) ∧
        List.Chain' (fun a b => a < b) (t2.filterMap visitIdx)) := by
  refine ⟨?_, ?_, deepStep_navError, deepStep_emptyDetails, ?_⟩
  · intro businesses res
    exact deepGo_length businesses res 0
  · intro businesses res j b h
    have hg := deepGo_get businesses res 0 j b h
    simpa using hg
  · intro env n
    unfold scrapeTrace scrapeRun
    by_cases hi : (!env.initOk : Bool)
    · rw [if_pos hi]
      exact ⟨[], [], by simp, by simp, by simp, by simp⟩
    · rw [if_neg hi]
      by_cases hs : (!env.searchOk : Bool)
      · rw [if_pos hs]
        exact ⟨[], [], by simp, by simp, by simp, by simp⟩
      · rw [if_neg hs]
        by_cases hd : (true && !(extract_business_cards env.cards n).isEmpty : Bool)
        · rw [if_pos hd]
          exact ⟨extractTrace env.cards n,
            (deepGo (extract_business_cards env.cards n) env.deepRes 0).2, rfl,
            extractTrace_all_parse env.cards n,
            (deepGo_trace _ env.deepRes 0).1,
            (deepGo_trace _ env.deepRes 0).2.1⟩
        · rw [if_neg hd]
          exact ⟨extractTrace env.cards n, [], by simp,
            extractTrace_all_parse env.cards n, by simp, by simp⟩

/-- Fixture record with a truthy url, for the C8 witness. -/
def recU : RecordT := [(RKey.title, Val.vStr [ 'u' ]), (RKey.url, Val.vStr [ 'h' ])]

/-- Witness for C8: the per-position characterization applied to a one-record
batch whose visit raises a navigation error. -/
theorem C8_witness :
    (deep_scrape_businesses [recU] (fun _ => DeepResult.navError))[0]? =
      some (deepStep recU ((fun _ => DeepResult.navError) 0)) :=
  C8_deep_failures_isolated.2.1 [recU] (fun _ => DeepResult.navError) 0 recU rfl

/-- Card-admitted record with a truthy url, for the C9 counterexample. -/
def recC9 : RecordT := [(RKey.title, Val.vStr [ 'A' ]), (RKey.url, Val.vStr [ 'u' ])]

/-- Scrape environment whose detail page carries an empty heading text. -/
def envC9 : ScrapeEnv :=
  { initOk := true, searchOk := true, cards := [some recC9],
    deepRes := fun _ => DeepResult.details [(RKey.title, Val.vStr [])] }

/-- Claim C9 is false on the code: the detail parser stores the heading text
unchecked, so a detail page whose heading is empty makes the deep-scrape
merge overwrite the non-empty card title, and the caller receives a record
whose title is the empty string. -/
theorem C9_counterexample :
    scrape envC9 5 true =
      Except.ok [[(RKey.title, Val.vStr []), (RKey.url, Val.vStr [ 'u' ])]] ∧
    dget RKey.title [(RKey.title, Val.vStr []), (RKey.url, Val.vStr [ 'u' ])] =
      some (Val.vStr []) := by
  exact ⟨rfl, rfl⟩

/-- Claim C9, amended: the Card Parser admits a card only when a non-empty
title was derived, and the non-empty-title property is preserved through the
pipeline and the optional deep-scrape merge provided every title a detail
record carries is non-empty (the detail parser itself may store an empty
heading text, in which case the merged title is empty). -/
theorem C9_title_invariant :
    (∀ (c : Card) (r : RecordT), parse_business_card c = some r → titled r) ∧
    (∀ (env : ScrapeEnv) (max_results : Nat) (deep_scrape : Bool),
      (∀ r, some r ∈ env.cards → titled r) →
      (∀ j d, env.deepRes j = DeepResult.details d → detailTitleOk d) →
      ∀ l, scrape env max_results deep_scrape = Except.ok l → ∀ r ∈ l, titled r) :=
  ⟨parse_business_card_titled, scrape_titled⟩

/-- Fixture card for the C9 witness: the anchor exists and the first name
selector finds the text Shop. -/
def cardTitled : Card :=
  { hasLink := true, cardText := String.toList "Shop",
    nameSel := [some (String.toList "Shop")], ratingAria := none, href := none }

/-- Fixture record and environment for the C9 witness pipeline run. -/
def recTitled : RecordT := [(RKey.title, Val.vStr [ 'W' ])]

/-- Environment of the C9 witness: one admitted record, no deep scrape
details. -/
def envTitled : ScrapeEnv :=
  { initOk := true, searchOk := true, cards := [some recTitled],
    deepRes := fun _ => DeepResult.navError }

/-- Witness for C9: the amended theorem applied to a concrete card and to a
concrete pipeline run. -/
theorem C9_witness :
    titled [(RKey.title, Val.vStr (String.toList "Shop"))] ∧
    titled recTitled := by
  constructor
  · exact C9_title_invariant.1 cardTitled _ (by decide)
  · refine C9_title_invariant.2 envTitled 5 false ?_ ?_ [recTitled] rfl recTitled
      (List.mem_singleton.2 rfl)
    · intro r hr
      have hr2 : r = recTitled := by
        simpa [envTitled] using hr
      rw [hr2]
      exact ⟨[ 'W' ], rfl, by decide⟩
    · intro j d hd
      exact absurd hd (by simp [envTitled])

theorem mem_keys_of_dget {κ α : Type} [DecidableEq κ] (k : κ) (d : List (κ × α)) (v : α) :
    dget k d = some v → k ∈ d.map Prod.fst := by
  induction d with
  | nil => intro h; cases h
  | cons kv rest ih =>
    obtain ⟨k0, v0⟩ := kv
    by_cases h0 : k0 = k
    · subst h0
      intro _
      simp
    · intro h
      rw [show dget k ((k0, v0) :: rest) = dget k rest from by simp [dget, h0]] at h
      simpa using Or.inr (ih h)

/-- Claim C10: in the deep-scrape merge every key present in the detail
record overrides the partial record's value, even when the detail value is
Python None; keys the detail record does not mention keep the partial
record's value.  In particular a detail page with a phone element whose text
yields no valid phone stores phone ↦ None, and the merged record's phone is
None whatever phone the card-level parse had derived. -/
theorem C10_merge_override :
    (∀ (a b : RecordT) (k : RKey), (b.map Prod.fst).Nodup → dmem k b = true →
      dget k (dmerge a b) = dget k b) ∧
    (∀ (a b : RecordT) (k : RKey), dmem k b = false → dget k (dmerge a b) = dget k a) ∧
    (∀ (a : RecordT) (pg : DetailPage) (t : List Char),
      pg.h1Wait = true → pg.phoneText = some t → extract_phone t = none →
      dget RKey.phone (parse_business_details pg false) = some Val.vNone ∧
      dget RKey.phone (dmerge a (parse_business_details pg false)) = some Val.vNone) := by
  refine ⟨?_, ?_, ?_⟩
  · intro a b k hnd hmem
    exact dget_dmerge_of_mem a hnd ((dmem_iff_keys k b).1 hmem)
  · intro a b k hmem
    apply dget_dmerge_of_not_mem
    intro hc
    rw [(dmem_iff_keys k b).2 hc] at hmem
    cases hmem
  · intro a pg t hw hp he
    have h1 := dget_phone_details pg t hw hp he
    refine ⟨h1, ?_⟩
    have hmem : RKey.phone ∈ (parse_business_details pg false).map Prod.fst :=
      mem_keys_of_dget _ _ _ h1
    rw [dget_dmerge_of_mem a (keysNodup_details pg false) hmem]
    exact h1

/-- Detail page of the C10 witness: the phone button's text strips to fewer
than 10 digits. -/
def pgPhone : DetailPage :=
  { h1Wait := true, h1Text := none, ratingAria := none, reviewsText := none,
    addressText := none, phoneText := some (String.toList "123"), websiteHref := none,
    categoryText := none, hoursButton := false, hoursText := none, plusCodeText := none,
    currentUrl := [] }

/-- Partial record of the C10 witness, carrying a card-derived phone. -/
def recPhone : RecordT := [(RKey.phone, Val.vStr (String.toList "2125550100"))]

/-- Witness for C10: the merge-override theorem applied at a concrete partial
record and detail page — the merged phone is None despite the card's phone —
and the untouched-key clause applied at a key the detail record does not
mention. -/
theorem C10_witness :
    dget RKey.phone (dmerge recPhone (parse_business_details pgPhone false)) =
      some Val.vNone ∧
    dget RKey.title (dmerge recPhone [(RKey.website, Val.vStr [ 'w' ])]) =
      dget RKey.title recPhone :=
  ⟨(C10_merge_override.2.2 recPhone pgPhone (String.toList "123") rfl rfl (by decide)).2,
   C10_merge_override.2.1 recPhone [(RKey.website, Val.vStr [ 'w' ])] RKey.title (by decide)⟩
